import Mathlib

/-!
Verification of the `picraft.vector` module: the `Vector` value type and the
`vector_range` lazy coordinate-range abstraction (construction, indexing,
slicing, inverse lookup via the `rmod`/`rdiv` helpers, ordering, and count).

The definitions below are a shallow embedding of `src/picraft/vector.py`.
Python integers are modelled by `Int`; Python `%` and `//` (floor division)
coincide with Lean's `Int.emod`/`Int.ediv` whenever the divisor is positive,
which is the case at every division site of the source (divisors are range
lengths or the guarded positive `denom` arguments), except `range.index`
where the division is exact and hence convention-independent.
Fallible operations return `Except PyErr`, with one constructor for each
kind of Python exception the code can raise.
-/

namespace Picraft

/-- Python exception kinds raised by the embedded code. -/
inductive PyErr : Type where
  | valueError : PyErr
  | indexError : PyErr
  | typeError : PyErr
  | assertionError : PyErr
  | zeroDivisionError : PyErr
deriving DecidableEq, Repr

/-- One of the three coordinate axes. -/
inductive Axis : Type where
  | x : Axis
  | y : Axis
  | z : Axis
deriving DecidableEq, Repr

/-- The 3-component integer vector of `picraft.vector.Vector`. -/
structure Vector : Type where
  x : Int
  y : Int
  z : Int
deriving DecidableEq, Repr

/-- `getattr(v, axis)` for an axis name. -/
def Vector.get (v : Vector) : Axis → Int
  | .x => v.x
  | .y => v.y
  | .z => v.z

/-- `Vector.__add__` with a `Vector` argument (component-wise pairing). -/
def Vector.addV (a b : Vector) : Vector := ⟨a.x + b.x, a.y + b.y, a.z + b.z⟩

/-- `Vector.__add__` with a scalar argument (broadcast, the
`AttributeError` fallback branch). -/
def Vector.addS (a : Vector) (s : Int) : Vector := ⟨a.x + s, a.y + s, a.z + s⟩

/-- `Vector.__sub__` with a `Vector` argument. -/
def Vector.subV (a b : Vector) : Vector := ⟨a.x - b.x, a.y - b.y, a.z - b.z⟩

/-- `Vector.__sub__` with a scalar argument (broadcast fallback branch). -/
def Vector.subS (a : Vector) (s : Int) : Vector := ⟨a.x - s, a.y - s, a.z - s⟩

/-- `Vector.__mul__` with a `Vector` argument. -/
def Vector.mulV (a b : Vector) : Vector := ⟨a.x * b.x, a.y * b.y, a.z * b.z⟩

/-- `Vector.__mul__` with a scalar argument (broadcast fallback branch). -/
def Vector.mulS (a : Vector) (s : Int) : Vector := ⟨a.x * s, a.y * s, a.z * s⟩

/-- Binary operators whose left operand is a plain scalar and whose right
operand is a `Vector`. -/
inductive ScalarLeftOp : Type where
  | add : ScalarLeftOp
  | sub : ScalarLeftOp
  | mul : ScalarLeftOp
deriving DecidableEq, Repr

/-- The reflected ("r-") method the `Vector` class provides for each
operator: the source defines `__radd__ = __add__` and `__rmul__ = __mul__`
and defines no `__rsub__` (none is inherited from `tuple` either). -/
def Vector.reflectedOf : ScalarLeftOp → Option (Vector → Int → Vector)
  | .add => some Vector.addS
  | .mul => some Vector.mulS
  | .sub => none

/-- Python's binary-operator dispatch for `scalar op vector`: the scalar's
own method returns `NotImplemented` (an int never handles a tuple
subclass), so the interpreter falls back to the vector's reflected method,
raising `TypeError` if the class supplies none. -/
def scalarOpVector (op : ScalarLeftOp) (s : Int) (v : Vector) :
    Except PyErr Vector :=
  match Vector.reflectedOf op with
  | some f => .ok (f v s)
  | none => .error .typeError

/-- A Python `range` object: `range(start, stop, step)`. -/
structure PyRange : Type where
  start : Int
  stop : Int
  step : Int
deriving DecidableEq, Repr

/-- `len(range(start, stop, step))`: CPython computes
`max(0, ceil((stop - start) / step))` for a positive step and symmetrically
for a negative one (a zero step cannot occur in a real `range`; we return 0
for that junk case, which every caller guards against). -/
def PyRange.length (r : PyRange) : Nat :=
  if 0 < r.step then ((r.stop - r.start + r.step - 1) / r.step).toNat
  else if r.step < 0 then ((r.start - r.stop - r.step - 1) / (-r.step)).toNat
  else 0

/-- In-bounds element access `r[t]` for `0 ≤ t` (total; callers use it only
for `t < r.length`). -/
def PyRange.get (r : PyRange) (t : Nat) : Int := r.start + t * r.step

/-- Python element access `r[i]` with support for negative indices and an
`IndexError` out of bounds. -/
def PyRange.getE (r : PyRange) (i : Int) : Except PyErr Int :=
  let i' := if i < 0 then i + r.length else i
  if 0 ≤ i' ∧ i' < r.length then .ok (r.start + i' * r.step)
  else .error .indexError

/-- The elements of the range, in iteration order. -/
def PyRange.toList (r : PyRange) : List Int :=
  (List.range r.length).map r.get

/-- `range.index(v)`: the position of `v` in the range, or `None` (Python
raises `ValueError`) when `v` is not an element. Membership requires the
offset from `start` to be an exact multiple of `step` landing within the
range; the returned position `(v - start) // step` is an exact quotient, so
the division convention is immaterial. -/
def PyRange.index (r : PyRange) (v : Int) : Option Nat :=
  if r.step ≠ 0 ∧ (v - r.start) % r.step = 0 ∧
      0 ≤ (v - r.start).fdiv r.step ∧
      (v - r.start).fdiv r.step < (r.length : Int)
  then some ((v - r.start).fdiv r.step).toNat else none

/-- `num_range[0]` (callers only use it on non-empty ranges). -/
def PyRange.first (r : PyRange) : Int := r.start

/-- `num_range[-1]` (callers only use it on non-empty ranges). -/
def PyRange.last (r : PyRange) : Int := r.start + ((r.length : Int) - 1) * r.step

/-- `picraft.vector.rmod(denom, result, num_range)`: the inverse of a mod
operation. Source behaviour: `ValueError` for a non-positive denominator;
the empty set when the target remainder is outside `[0, denom)` or the
bounding range is empty; otherwise (after an `assert` that the bounding
range is ascending) the arithmetic progression
`range(num_range[0] + (result - num_range[0] % denom) % denom,
num_range.stop, denom)`. We return the element list of the resulting
range/set. -/
def rmod (denom result : Int) (numRange : PyRange) : Except PyErr (List Int) :=
  if denom ≤ 0 then .error .valueError
  else if ¬(0 ≤ result ∧ result < denom) then .ok []
  else if numRange.length = 0 then .ok []
  else if ¬(numRange.first ≤ numRange.last) then .error .assertionError
  else
    .ok (PyRange.toList
      ⟨numRange.first + (result - numRange.first % denom) % denom,
       numRange.stop, denom⟩)

/-- `picraft.vector.rdiv(denom, result)`: the inverse of a floor-division:
`ValueError` for a non-positive denominator, else the contiguous range
`range(result * denom, result * denom + denom)`. -/
def rdiv (denom result : Int) : Except PyErr (List Int) :=
  if denom ≤ 0 then .error .valueError
  else .ok (PyRange.toList ⟨result * denom, result * denom + denom, 1⟩)

/-- The six valid axis orders (the six permutations of `'xyz'`). -/
inductive Order : Type where
  | xyz : Order
  | xzy : Order
  | yxz : Order
  | yzx : Order
  | zxy : Order
  | zyx : Order
deriving DecidableEq, Repr

/-- The axis occupying slot `k` of the order string (slot 0 varies
fastest). -/
def Order.axisAt (o : Order) : Fin 3 → Axis
  | 0 => match o with
    | .xyz => .x | .xzy => .x | .yxz => .y | .yzx => .y | .zxy => .z | .zyx => .z
  | 1 => match o with
    | .xyz => .y | .xzy => .z | .yxz => .x | .yzx => .z | .zxy => .x | .zyx => .y
  | 2 => match o with
    | .xyz => .z | .xzy => .y | .yxz => .z | .yzx => .x | .zxy => .y | .zyx => .x

/-- `order.index(axis)`: the slot an axis occupies in the order string
(the `_indexes` table of `vector_range.__init__`). -/
def Order.slotOf (o : Order) : Axis → Fin 3
  | .x => match o with
    | .xyz => 0 | .xzy => 0 | .yxz => 1 | .yzx => 2 | .zxy => 1 | .zyx => 2
  | .y => match o with
    | .xyz => 1 | .xzy => 2 | .yxz => 0 | .yzx => 0 | .zxy => 2 | .zyx => 1
  | .z => match o with
    | .xyz => 2 | .xzy => 1 | .yxz => 2 | .yzx => 1 | .zxy => 0 | .zyx => 0

/-- `Vector(*(v[i] for i in self._indexes))`: place the values computed
for the three order slots back into x, y, z components. -/
def placeByOrder (o : Order) (vals : Fin 3 → Int) : Vector :=
  ⟨vals (o.slotOf .x), vals (o.slotOf .y), vals (o.slotOf .z)⟩

/-- The membership test `order in ('xyz', 'xzy', 'yxz', 'yzx', 'zxy',
'zyx')` of the constructor, returning the parsed order when it passes. -/
def parseOrder (s : String) : Option Order :=
  if s = "xyz" then some .xyz
  else if s = "xzy" then some .xzy
  else if s = "yxz" then some .yxz
  else if s = "yzx" then some .yzx
  else if s = "zxy" then some .zxy
  else if s = "zyx" then some .zyx
  else none

/-- The state of a `picraft.vector.vector_range` object: the stored
`start`/`stop`/`step`/`order` arguments plus the optional internal window
(`_slice`), a Python range over raw linear indices. The `_ranges` and
`_indexes` tables are derived state, recomputed here on demand. -/
structure vector_range : Type where
  start : Vector
  stop : Vector
  step : Vector
  order : Order
  window : Option PyRange
deriving DecidableEq, Repr

namespace vector_range

/-- The per-axis progression `range(start.a, stop.a, step.a)`. -/
def axisRange (r : vector_range) (a : Axis) : PyRange :=
  ⟨r.start.get a, r.stop.get a, r.step.get a⟩

/-- `self._ranges[k]`: the progression of the axis in slot `k` of the
order. -/
def rangeAt (r : vector_range) (k : Fin 3) : PyRange :=
  r.axisRange (r.order.axisAt k)

/-- The length of the full (unwindowed) index space:
`product(len(r) for r in self._ranges)`. -/
def rawLen (r : vector_range) : Nat :=
  (r.rangeAt 0).length * (r.rangeAt 1).length * (r.rangeAt 2).length

/-- `len(self)`: the window length when a window is set, the raw length
otherwise. -/
def len (r : vector_range) : Nat :=
  match r.window with
  | none => r.rawLen
  | some w => w.length

/-- The raw-index branch of `__getitem__`: look up the position along each
slot progression (`index % len0`, `(index // len0) % len1`,
`index // (len0 * len1)`) and place the three values back into x, y, z via
the `_indexes` table. Python range indexing is bounds-checked (with
negative-index wrap-around) and a zero slot length raises
`ZeroDivisionError` at the corresponding `%` or `//`. -/
def getRawE (r : vector_range) (raw : Int) : Except PyErr Vector :=
  let L0 : Int := (r.rangeAt 0).length
  if L0 = 0 then .error .zeroDivisionError else
  match (r.rangeAt 0).getE (raw % L0) with
  | .error e => .error e
  | .ok v0 =>
    let L1 : Int := (r.rangeAt 1).length
    if L1 = 0 then .error .zeroDivisionError else
    match (r.rangeAt 1).getE ((raw / L0) % L1) with
    | .error e => .error e
    | .ok v1 =>
      match (r.rangeAt 2).getE (raw / (L0 * L1)) with
      | .error e => .error e
      | .ok v2 =>
        .ok (placeByOrder r.order (fun k =>
          match k with | 0 => v0 | 1 => v1 | 2 => v2))

/-- The integer branch of `__getitem__`: negative logical indices count
from the end, out-of-range logical indices raise `IndexError`, and a set
window translates the logical index to a raw one before the raw lookup. -/
def getE (r : vector_range) (i : Int) : Except PyErr Vector :=
  let n : Int := r.len
  let i' := if i < 0 then i + n else i
  if 0 ≤ i' ∧ i' < n then
    match r.window with
    | none => r.getRawE i'
    | some w => r.getRawE (w.get i'.toNat)
  else .error .indexError

/-- `__iter__` materialised: `self[i] for i in range(len(self))`, stopping
at (and surfacing) the first error an element lookup raises. -/
def elemsE (r : vector_range) : Except PyErr (List Vector) :=
  (List.range r.len).mapM (fun i : Nat => r.getE (i : Int))

/-- The forward index-to-coordinate mapping as a pure function on raw
indices: position `raw mod L0` along the fastest slot, `(raw div L0) mod
L1` along the second, `raw div (L0 * L1)` along the third, each mapped
through its slot progression and placed back by order. For an in-bounds
raw index this is what `getRawE` returns. -/
def atRaw (r : vector_range) (raw : Nat) : Vector :=
  let L0 := (r.rangeAt 0).length
  let L1 := (r.rangeAt 1).length
  placeByOrder r.order (fun k =>
    match k with
    | 0 => (r.rangeAt 0).get (raw % L0)
    | 1 => (r.rangeAt 1).get ((raw / L0) % L1)
    | 2 => (r.rangeAt 2).get (raw / (L0 * L1)))

/-- The raw index a logical index resolves to (identity without a window,
window lookup with one). -/
def rawOf (r : vector_range) (i : Nat) : Int :=
  match r.window with
  | none => i
  | some w => w.get i

/-- The slice branch of `__getitem__`: normalise the slice bounds against
the logical length exactly as the source does (note the `min(len, ...)`
clamps), then build a fresh `vector_range` over the same
start/stop/step/order whose window is `range(start, stop, step)` — the
existing window, if any, is *not* composed into the new one. A zero slice
step raises `ValueError` from the `range` constructor, and the `__init__`
assertion rejects a non-empty window longer than the raw index space. -/
def sliceStartIdx (n : Int) (sstart : Option Int) (step : Int) : Int :=
  if step < 0 then
    min n (match sstart with
      | none => n - 1
      | some s => if s < 0 then max 0 (s + n) else s)
  else
    min n (max 0 (match sstart with
      | none => 0
      | some s => if s < 0 then s + n else s))

def sliceStopIdx (n : Int) (sstop : Option Int) (step : Int) : Int :=
  if step < 0 then
    min n (match sstop with
      | none => -1
      | some s => if s < 0 then max 0 (s + n) else s)
  else
    min n (max 0 (match sstop with
      | none => n
      | some s => if s < 0 then s + n else s))

def sliceE (r : vector_range) (sstart sstop sstep : Option Int) :
    Except PyErr vector_range :=
  let n : Int := r.len
  let step := sstep.getD 1
  let start : Int := sliceStartIdx n sstart step
  let stop : Int := sliceStopIdx n sstop step
  if step = 0 then .error .valueError
  else
    let w : PyRange := ⟨start, stop, step⟩
    if w.length ≠ 0 ∧ ¬(w.length ≤ r.rawLen) then .error .assertionError
    else .ok { r with window := some w }

/-- `index(value)`: recover the candidate raw indices per slot with
`rmod`/`rdiv`, intersect the three candidate sets, assert the intersection
is a singleton, and translate the raw result through the window when one
is set. Every `ValueError` of a sub-step is caught and re-raised as the
"not in range" `ValueError`; a failed assertion escapes as
`AssertionError`. -/
def indexOf (r : vector_range) (v : Vector) : Except PyErr Int :=
  let i := v.get (r.order.axisAt 0)
  let j := v.get (r.order.axisAt 1)
  let k := v.get (r.order.axisAt 2)
  let L0 : Int := (r.rangeAt 0).length
  let L1 : Int := (r.rangeAt 1).length
  let L2 : Int := (r.rangeAt 2).length
  let l : Int := L0 * L1 * L2
  match (r.rangeAt 0).index i with
  | none => .error .valueError
  | some p0 =>
    match rmod L0 p0 ⟨0, l, 1⟩ with
    | .error e => .error e
    | .ok iIdx =>
      match (r.rangeAt 1).index j with
      | none => .error .valueError
      | some p1 =>
        match rmod L1 p1 ⟨0, l / L0, 1⟩ with
        | .error e => .error e
        | .ok aIdx =>
          match aIdx.mapM (fun a => rdiv L0 a) with
          | .error e => .error e
          | .ok jParts =>
            let jIdx := jParts.flatten
            match (r.rangeAt 2).index k with
            | none => .error .valueError
            | some p2 =>
              match rdiv (L0 * L1) p2 with
              | .error e => .error e
              | .ok kIdx =>
                match iIdx.filter
                    (fun t => decide (t ∈ jIdx) && decide (t ∈ kIdx)) with
                | [t] =>
                  match r.window with
                  | none => .ok t
                  | some w =>
                    match w.index t with
                    | none => .error .valueError
                    | some pos => .ok (pos : Int)
                | _ => .error .assertionError

/-- `__contains__(value)`: `index` with its `ValueError` converted to
`False` (any other exception propagates). -/
def containsE (r : vector_range) (v : Vector) : Except PyErr Bool :=
  match r.indexOf v with
  | .ok _ => .ok true
  | .error .valueError => .ok false
  | .error e => .error e

/-- `count(value)`: 1 when the value is contained, 0 otherwise, via the
containment test (no scan of the elements). -/
def countE (r : vector_range) (v : Vector) : Except PyErr Nat :=
  match r.containsE v with
  | .ok true => .ok 1
  | .ok false => .ok 0
  | .error e => .error e

end vector_range

/-- `Vector.__lt__` as a tuple derivative: strict lexicographic comparison
of the `(x, y, z)` triples. -/
def vectorLt (a b : Vector) : Bool :=
  decide (a.x < b.x ∨ (a.x = b.x ∧ (a.y < b.y ∨ (a.y = b.y ∧ a.z < b.z))))

/-- The `zip_longest` loop of `vector_range.__lt__`: compare pairwise,
return at the first strict difference, and — once one side is exhausted —
hit the `None` fill value, whose comparison against a `Vector` raises
`TypeError` on Python 3. -/
def ltZip : List Vector → List Vector → Except PyErr Bool
  | [], [] => .ok false
  | [], _ :: _ => .error .typeError
  | _ :: _, [] => .error .typeError
  | a :: as', b :: bs' =>
    if vectorLt a b then .ok true
    else if vectorLt b a then .ok false
    else ltZip as' bs'

/-- `vector_range.__lt__` on two ranges: iterate both and run the
`zip_longest` comparison loop. (Iteration errors of either side are
surfaced first; for well-formed ranges iteration never errors, matching
the lazy original.) -/
def vrLt (r1 r2 : Picraft.vector_range) : Except PyErr Bool :=
  match r1.elemsE, r2.elemsE with
  | .ok l1, .ok l2 => ltZip l1 l2
  | .error e, _ => .error e
  | _, .error e => .error e

/-- `vector_range.__init__` as publicly called (no internal `_slice`
argument): apply the stop-only shorthand, validate the order string, then
build the per-axis `range` objects — a zero step component makes the
built-in `range` constructor raise `ValueError`. -/
def mkVectorRange (start : Vector) (stop? : Option Vector) (step : Vector)
    (order : String) : Except PyErr vector_range :=
  let st : Vector := match stop? with | none => ⟨0, 0, 0⟩ | some _ => start
  let sp : Vector := match stop? with | none => start | some s => s
  match parseOrder order with
  | none => .error .valueError
  | some o =>
    if step.x = 0 ∨ step.y = 0 ∨ step.z = 0 then .error .valueError
    else .ok ⟨st, sp, step, o, none⟩

/-- Well-formedness of a range state, as the spec's data model describes
it: non-zero step components (guaranteed by the constructor) and, when a
window is set, a non-zero window step (guaranteed by the `range`
constructor) with every window entry a raw index of the full index space
(the spec defines the window as a sub-range of raw indices). -/
def vector_range.WF (r : vector_range) : Prop :=
  r.step.x ≠ 0 ∧ r.step.y ≠ 0 ∧ r.step.z ≠ 0 ∧
  (∀ w, r.window = some w →
    w.step ≠ 0 ∧ ∀ t ∈ w.toList, 0 ≤ t ∧ t < (r.rawLen : Int))

/-- Reference semantics, for the refinement claim about slicing.
Modelled from the spec: CPython's `slice.indices(length)` normalisation —
the effective start and stop of `l[start:stop:step]` for a sequence of the
given length (negative bounds count from the end, out-of-range bounds
clamp to the valid extremes, which for a negative step means clamping
below to the sentinel `-1` and above to `length - 1`). -/
def pySliceIndices (n : Int) (sstart sstop : Option Int) (step : Int) :
    Int × Int :=
  if step < 0 then
    (match sstart with
      | none => n - 1
      | some s => if s < 0 then (if s + n < 0 then -1 else s + n)
                  else min s (n - 1),
     match sstop with
      | none => -1
      | some s => if s < 0 then (if s + n < 0 then -1 else s + n)
                  else min s (n - 1))
  else
    (match sstart with
      | none => 0
      | some s => if s < 0 then max 0 (s + n) else min s n,
     match sstop with
      | none => n
      | some s => if s < 0 then max 0 (s + n) else min s n)

/-- Reference semantics, for the refinement claim about slicing.
Modelled from the spec: the Python list slice `l[start:stop:step]` —
the elements of `l` at the normalised slice indices, in slice order. -/
def pyListSlice {α : Type} (l : List α) (sstart sstop : Option Int)
    (step : Int) : List α :=
  let p := pySliceIndices l.length sstart sstop step
  (PyRange.toList ⟨p.1, p.2, step⟩).filterMap (fun i => l[i.toNat]?)

/-- The 2x2x2 unit cube range from the spec example, with a given order. -/
def cube2 (o : Order) : vector_range :=
  ⟨⟨0, 0, 0⟩, ⟨2, 2, 2⟩, ⟨1, 1, 1⟩, o, none⟩

/-- The eight corners of the 2x2x2 cube in the sequence fixed by order
`'xyz'`. -/
def cube2xyzList : List Vector :=
  [⟨0, 0, 0⟩, ⟨1, 0, 0⟩, ⟨0, 1, 0⟩, ⟨1, 1, 0⟩,
   ⟨0, 0, 1⟩, ⟨1, 0, 1⟩, ⟨0, 1, 1⟩, ⟨1, 1, 1⟩]

/-- `vector_range(Vector(5, 1, 1), order='xyz')`: a five-element range. -/
def base5 : vector_range := ⟨⟨0, 0, 0⟩, ⟨5, 1, 1⟩, ⟨1, 1, 1⟩, .xyz, none⟩

/-- `vector_range(Vector(5, 1, 1), order='xyz')[6:2:-1]`: a publicly
reachable range whose mis-clamped window refers to raw index 5 of a
5-element raw index space. -/
def pathological : vector_range :=
  ⟨⟨0, 0, 0⟩, ⟨5, 1, 1⟩, ⟨1, 1, 1⟩, .xyz, some ⟨5, 2, -1⟩⟩

/-- `vector_range(Vector(2, 1, 1), order='xyz')`: a two-element range. -/
def pair2 : vector_range := ⟨⟨0, 0, 0⟩, ⟨2, 1, 1⟩, ⟨1, 1, 1⟩, .xyz, none⟩

/-- `vector_range(Vector(1, 1, 1), order='xyz')`: a one-element range. -/
def single1 : vector_range := ⟨⟨0, 0, 0⟩, ⟨1, 1, 1⟩, ⟨1, 1, 1⟩, .xyz, none⟩

/-- `vector_range(Vector(3, 1, 1), order='xyz')`: a three-element range. -/
def triple3 : vector_range := ⟨⟨0, 0, 0⟩, ⟨3, 1, 1⟩, ⟨1, 1, 1⟩, .xyz, none⟩

/-! ### Basic facts about the `range` model -/

namespace PyRange

theorem lt_length_iff {r : PyRange} (h : 0 < r.step) {t : Nat} :
    t < r.length ↔ r.start + (t : Int) * r.step < r.stop := by
  have h1 : ((t : Int) + 1 ≤ (r.stop - r.start + r.step - 1) / r.step) ↔
      ((t : Int) + 1) * r.step ≤ r.stop - r.start + r.step - 1 :=
    Int.le_ediv_iff_mul_le h
  have h2 : ((t : Int) + 1) * r.step = (t : Int) * r.step + r.step := by ring
  simp only [length, if_pos h]
  rw [Int.lt_toNat, Int.lt_iff_add_one_le, h1, h2]
  omega

theorem lt_length_iff_neg {r : PyRange} (h : r.step < 0) {t : Nat} :
    t < r.length ↔ r.stop < r.start + (t : Int) * r.step := by
  have hs : (0 : Int) < -r.step := by omega
  have h1 : ((t : Int) + 1 ≤ (r.start - r.stop - r.step - 1) / (-r.step)) ↔
      ((t : Int) + 1) * (-r.step) ≤ r.start - r.stop - r.step - 1 :=
    Int.le_ediv_iff_mul_le hs
  have h2 : ((t : Int) + 1) * (-r.step) = -((t : Int) * r.step) - r.step := by
    ring
  simp only [length, if_pos h, if_neg (by omega : ¬0 < r.step)]
  rw [Int.lt_toNat, Int.lt_iff_add_one_le, h1, h2]
  omega

theorem length_eq_zero_of_start_le {r : PyRange} (h : r.step < 0)
    (hle : r.start ≤ r.stop) : r.length = 0 := by
  by_contra hne
  have h0 : 0 < r.length := Nat.pos_of_ne_zero hne
  have := (lt_length_iff_neg h).1 h0
  have hts : (0 : Int) * r.step = 0 := by ring
  simp only [Nat.cast_zero, hts, add_zero] at this
  omega

theorem length_eq_zero_of_stop_le {r : PyRange} (h : 0 < r.step)
    (hle : r.stop ≤ r.start) : r.length = 0 := by
  by_contra hne
  have h0 : 0 < r.length := Nat.pos_of_ne_zero hne
  have := (lt_length_iff h).1 h0
  have hts : (0 : Int) * r.step = 0 := by ring
  simp only [Nat.cast_zero, hts, add_zero] at this
  omega

theorem mem_toList {r : PyRange} {n : Int} :
    n ∈ r.toList ↔ ∃ t : Nat, t < r.length ∧ r.get t = n := by
  simp [toList, List.mem_map, List.mem_range]

theorem get_inj {r : PyRange} (h : r.step ≠ 0) : Function.Injective r.get := by
  intro t t' het
  simp only [get] at het
  have h2 := add_left_cancel het
  have := mul_right_cancel₀ h h2
  exact_mod_cast this

theorem nodup_toList {r : PyRange} (h : r.step ≠ 0) : r.toList.Nodup :=
  (List.nodup_range r.length).map (get_inj h)

theorem mem_toList_pos {r : PyRange} (h : 0 < r.step) {n : Int} :
    n ∈ r.toList ↔
      r.start ≤ n ∧ n < r.stop ∧ (n - r.start) % r.step = 0 := by
  rw [mem_toList]
  constructor
  · rintro ⟨t, ht, rfl⟩
    have hs : 0 ≤ (t : Int) * r.step :=
      mul_nonneg (by positivity) h.le
    refine ⟨by simp only [get]; omega, ?_, ?_⟩
    · simpa [get] using (lt_length_iff h).1 ht
    · simp [get]
  · rintro ⟨h1, h2, h3⟩
    have hd : r.step ∣ (n - r.start) := Int.dvd_of_emod_eq_zero h3
    have hq0 : 0 ≤ (n - r.start) / r.step := Int.ediv_nonneg (by omega) h.le
    refine ⟨((n - r.start) / r.step).toNat, ?_, ?_⟩
    · rw [lt_length_iff h, Int.toNat_of_nonneg hq0, Int.ediv_mul_cancel hd]
      omega
    · rw [get, Int.toNat_of_nonneg hq0, Int.ediv_mul_cancel hd]
      omega

theorem bounds_of_mem_neg {r : PyRange} (h : r.step < 0) {n : Int}
    (hn : n ∈ r.toList) : r.stop < n ∧ n ≤ r.start := by
  obtain ⟨t, ht, rfl⟩ := mem_toList.1 hn
  have h1 := (lt_length_iff_neg h).1 ht
  have hs : (t : Int) * r.step ≤ 0 :=
    mul_nonpos_of_nonneg_of_nonpos (by positivity) h.le
  constructor
  · simpa [get] using h1
  · simp only [get]; omega

theorem index_eq_some {r : PyRange} {v : Int} {t : Nat}
    (h : r.index v = some t) : t < r.length ∧ r.get t = v := by
  simp only [index] at h
  split at h
  · rename_i hc
    obtain ⟨hs, hmod, hq0, hql⟩ := hc
    obtain rfl : ((v - r.start).fdiv r.step).toNat = t := by
      simpa using h
    have hd : r.step ∣ (v - r.start) := Int.dvd_of_emod_eq_zero hmod
    obtain ⟨c, hc⟩ := hd
    have hfd : (v - r.start).fdiv r.step = c := by
      rw [hc, Int.mul_fdiv_cancel_left _ hs]
    constructor
    · omega
    · rw [get, Int.toNat_of_nonneg hq0, hfd]
      have hcm : c * r.step = r.step * c := mul_comm c r.step
      omega
  · exact absurd h (by simp)

theorem index_get {r : PyRange} (h : r.step ≠ 0) {t : Nat}
    (ht : t < r.length) : r.index (r.get t) = some t := by
  have hget : r.get t - r.start = (t : Int) * r.step := by
    simp [get]
  simp only [index, hget, Int.mul_fdiv_cancel _ h]
  rw [if_pos ⟨h, Int.mul_emod_left _ _, by positivity, by exact_mod_cast ht⟩]
  simp

theorem index_eq_none_iff {r : PyRange} (h : r.step ≠ 0) {v : Int} :
    r.index v = none ↔ v ∉ r.toList := by
  constructor
  · intro hn hv
    obtain ⟨t, ht, rfl⟩ := mem_toList.1 hv
    rw [index_get h ht] at hn
    exact absurd hn (by simp)
  · intro hv
    cases hidx : r.index v with
    | none => rfl
    | some t =>
      obtain ⟨ht, hg⟩ := index_eq_some hidx
      exact absurd (mem_toList.2 ⟨t, ht, hg⟩) hv

theorem length_pos_of_index {r : PyRange} {v : Int} {t : Nat}
    (h : r.index v = some t) : 0 < r.length := by
  have := (index_eq_some h).1
  omega

theorem step_ne_zero_of_index {r : PyRange} {v : Int} {t : Nat}
    (h : r.index v = some t) : r.step ≠ 0 := by
  simp only [index] at h
  split at h
  · rename_i hc
    exact hc.1
  · exact absurd h (by simp)

theorem getE_ok {r : PyRange} {i : Int} (h0 : 0 ≤ i) (hl : i < r.length) :
    r.getE i = .ok (r.start + i * r.step) := by
  simp only [getE, if_neg (by omega : ¬i < 0)]
  rw [if_pos ⟨h0, hl⟩]

theorem getE_err {r : PyRange} {i : Int} (h0 : 0 ≤ i) (hl : (r.length : Int) ≤ i) :
    r.getE i = .error .indexError := by
  simp only [getE, if_neg (by omega : ¬i < 0)]
  rw [if_neg (by omega)]

theorem getE_nat_ok {r : PyRange} {t : Nat} (hl : t < r.length) :
    r.getE t = .ok (r.get t) := by
  rw [getE_ok (by positivity) (by exact_mod_cast hl), get]

end PyRange

/-! ### Axis order coherence and generic list helpers -/

theorem Order.axisAt_slotOf (o : Order) (a : Axis) :
    o.axisAt (o.slotOf a) = a := by
  cases o <;> cases a <;> rfl

theorem Order.slotOf_axisAt (o : Order) (k : Fin 3) :
    o.slotOf (o.axisAt k) = k := by
  cases o <;> fin_cases k <;> rfl

theorem get_placeByOrder (o : Order) (vals : Fin 3 → Int) (a : Axis) :
    (placeByOrder o vals).get a = vals (o.slotOf a) := by
  cases a <;> rfl

theorem placeByOrder_get (o : Order) (v : Vector) :
    placeByOrder o (fun k => v.get (o.axisAt k)) = v := by
  cases v; cases o <;> rfl

theorem vector_eq_of_get {v w : Vector} (h : ∀ a, v.get a = w.get a) :
    v = w := by
  cases v; cases w
  have hx := h .x
  have hy := h .y
  have hz := h .z
  simp only [Vector.get] at hx hy hz
  simp [hx, hy, hz]

theorem mapM_ok {α β : Type} {f : α → Except PyErr β} {g : α → β} :
    ∀ {l : List α}, (∀ a ∈ l, f a = .ok (g a)) → l.mapM f = .ok (l.map g)
  | [], _ => rfl
  | a :: l, h => by
    rw [List.mapM_cons, h a (by simp),
      mapM_ok (fun b hb => h b (by simp [hb]))]
    rfl

theorem filter_eq_singleton {l : List Int} {p : Int → Bool} {t : Int}
    (hn : l.Nodup) (hm : t ∈ l) (hp : p t = true)
    (hu : ∀ n ∈ l, p n = true → n = t) : l.filter p = [t] := by
  induction l with
  | nil => simp at hm
  | cons a l ih =>
    rcases List.mem_cons.1 hm with rfl | hm2
    · rw [List.filter_cons, if_pos hp]
      have hnil : l.filter p = [] := by
        rw [List.filter_eq_nil_iff]
        intro b hb hpb
        have := hu b (by simp [hb]) hpb
        subst this
        exact (List.nodup_cons.1 hn).1 hb
      rw [hnil]
    · have ha : p a = false := by
        by_contra hpa
        have hTrue : p a = true := by
          cases hpa2 : p a with
          | false => exact absurd hpa2 hpa
          | true => rfl
        have := hu a (by simp) hTrue
        subst this
        exact (List.nodup_cons.1 hn).1 hm2
      rw [List.filter_cons, if_neg (by simp [ha])]
      exact ih (List.nodup_cons.1 hn).2 hm2
        (fun n hb hpb => hu n (by simp [hb]) hpb)

/-! ### Mixed-radix decomposition -/

theorem nat_decompose (L0 L1 : Nat) (n : Nat) :
    n % L0 + L0 * ((n / L0) % L1) + L0 * L1 * (n / (L0 * L1)) = n := by
  conv_rhs => rw [← Nat.div_add_mod n L0]
  rw [← Nat.div_div_eq_div_mul]
  conv_rhs => rw [← Nat.div_add_mod (n / L0) L1]
  ring

theorem nat_compose_lt {L0 L1 L2 p0 p1 p2 : Nat}
    (h0 : p0 < L0) (h1 : p1 < L1) (h2 : p2 < L2) :
    p0 + L0 * p1 + L0 * L1 * p2 < L0 * L1 * L2 := by
  have e1 : L0 * (p1 + 1) ≤ L0 * L1 := Nat.mul_le_mul_left _ (by omega)
  have e2 : L0 * L1 * (p2 + 1) ≤ L0 * L1 * L2 := Nat.mul_le_mul_left _ (by omega)
  have e3 : L0 * (p1 + 1) = L0 * p1 + L0 := by ring
  have e4 : L0 * L1 * (p2 + 1) = L0 * L1 * p2 + L0 * L1 := by ring
  omega

theorem nat_compose_components {L0 L1 L2 p0 p1 p2 : Nat}
    (h0 : p0 < L0) (h1 : p1 < L1) (h2 : p2 < L2) :
    (p0 + L0 * p1 + L0 * L1 * p2) % L0 = p0 ∧
    ((p0 + L0 * p1 + L0 * L1 * p2) / L0) % L1 = p1 ∧
    (p0 + L0 * p1 + L0 * L1 * p2) / (L0 * L1) = p2 := by
  have hL0 : 0 < L0 := by omega
  have hL1 : 0 < L1 := by omega
  have e1 : p0 + L0 * p1 + L0 * L1 * p2 = p0 + L0 * (p1 + L1 * p2) := by ring
  have hmod : (p0 + L0 * p1 + L0 * L1 * p2) % L0 = p0 := by
    rw [e1, Nat.add_mul_mod_self_left, Nat.mod_eq_of_lt h0]
  have hdiv : (p0 + L0 * p1 + L0 * L1 * p2) / L0 = p1 + L1 * p2 := by
    rw [e1, Nat.add_mul_div_left _ _ hL0, Nat.div_eq_of_lt h0, Nat.zero_add]
  refine ⟨hmod, ?_, ?_⟩
  · rw [hdiv, Nat.add_mul_mod_self_left, Nat.mod_eq_of_lt h1]
  · rw [← Nat.div_div_eq_div_mul, hdiv, Nat.add_mul_div_left _ _ hL1,
      Nat.div_eq_of_lt h1, Nat.zero_add]

/-! ### Element access of a range under well-formedness -/

namespace vector_range

theorem WF_step_ne {r : vector_range} (h : r.WF) (a : Axis) :
    r.step.get a ≠ 0 := by
  cases a
  exacts [h.1, h.2.1, h.2.2.1]

theorem WF_rangeAt_step_ne {r : vector_range} (h : r.WF) (k : Fin 3) :
    (r.rangeAt k).step ≠ 0 := WF_step_ne h _

theorem rawLen_pos_parts {r : vector_range} (h : 0 < r.rawLen) :
    0 < (r.rangeAt 0).length ∧ 0 < (r.rangeAt 1).length ∧
      0 < (r.rangeAt 2).length := by
  unfold rawLen at h
  refine ⟨Nat.pos_of_ne_zero ?_, Nat.pos_of_ne_zero ?_,
    Nat.pos_of_ne_zero ?_⟩ <;> intro hz <;> rw [hz] at h <;> simp at h

theorem getRawE_ok {r : vector_range} {raw : Nat} (hlt : raw < r.rawLen) :
    r.getRawE (raw : Int) = .ok (r.atRaw raw) := by
  obtain ⟨h0, h1, h2⟩ := rawLen_pos_parts (r := r) (by omega)
  have hp0 : raw % (r.rangeAt 0).length < (r.rangeAt 0).length :=
    Nat.mod_lt _ h0
  have hp1 : (raw / (r.rangeAt 0).length) % (r.rangeAt 1).length <
      (r.rangeAt 1).length := Nat.mod_lt _ h1
  have hp2 : raw / ((r.rangeAt 0).length * (r.rangeAt 1).length) <
      (r.rangeAt 2).length := by
    rw [Nat.div_lt_iff_lt_mul (Nat.mul_pos h0 h1)]
    calc raw < r.rawLen := hlt
      _ = (r.rangeAt 2).length *
          ((r.rangeAt 0).length * (r.rangeAt 1).length) := by
        unfold rawLen; ring
  have e0 : (r.rangeAt 0).getE
      ((raw : Int) % ((r.rangeAt 0).length : Int)) =
      .ok ((r.rangeAt 0).get (raw % (r.rangeAt 0).length)) := by
    rw [← Int.natCast_mod, PyRange.getE_nat_ok hp0]
  have e1 : (r.rangeAt 1).getE
      (((raw : Int) / ((r.rangeAt 0).length : Int)) %
        ((r.rangeAt 1).length : Int)) =
      .ok ((r.rangeAt 1).get
        ((raw / (r.rangeAt 0).length) % (r.rangeAt 1).length)) := by
    rw [← Int.natCast_div, ← Int.natCast_mod, PyRange.getE_nat_ok hp1]
  have e2 : (r.rangeAt 2).getE
      ((raw : Int) / (((r.rangeAt 0).length : Int) *
        ((r.rangeAt 1).length : Int))) =
      .ok ((r.rangeAt 2).get
        (raw / ((r.rangeAt 0).length * (r.rangeAt 1).length))) := by
    rw [← Nat.cast_mul, ← Int.natCast_div, PyRange.getE_nat_ok hp2]
  simp only [getRawE, e0, e1, e2]
  simp [atRaw, h0.ne', h1.ne']

theorem getE_ok_WF {r : vector_range} (hWF : r.WF) {i : Nat}
    (hi : i < r.len) :
    r.getE (i : Int) = .ok (r.atRaw (r.rawOf i).toNat) ∧
      0 ≤ r.rawOf i ∧ r.rawOf i < (r.rawLen : Int) := by
  cases hw : r.window with
  | none =>
    have hlen : r.len = r.rawLen := by simp [len, hw]
    have hraw : r.rawOf i = (i : Int) := by simp [rawOf, hw]
    have hlt : i < r.rawLen := hlen ▸ hi
    refine ⟨?_, ?_, ?_⟩
    · have := getRawE_ok (r := r) hlt
      simp only [getE, hw, hraw]
      rw [if_neg (by omega : ¬(i : Int) < 0),
        if_pos ⟨by omega, by exact_mod_cast hi⟩]
      simpa [hraw] using this
    · rw [hraw]; omega
    · rw [hraw]; exact_mod_cast hlt
  | some w =>
    have hlen : r.len = w.length := by simp [len, hw]
    have hraw : r.rawOf i = w.get i := by simp [rawOf, hw]
    have hmem : w.get i ∈ w.toList :=
      PyRange.mem_toList.2 ⟨i, hlen ▸ hi, rfl⟩
    obtain ⟨hge, hlt⟩ := ((hWF.2.2.2 w hw).2) _ hmem
    have hltN : (r.rawOf i).toNat < r.rawLen := by omega
    refine ⟨?_, hraw ▸ hge, hraw ▸ hlt⟩
    · have hok := getRawE_ok (r := r) hltN
      rw [Int.toNat_of_nonneg (hraw ▸ hge)] at hok
      simp only [getE, hw]
      rw [if_neg (by omega : ¬(i : Int) < 0),
        if_pos ⟨by omega, by exact_mod_cast hi⟩]
      have hcast : ((i : Int)).toNat = i := by simp
      rw [hcast]
      rw [hraw] at hok ⊢
      exact hok

end vector_range

/-! ### Evaluation of the inverse-arithmetic helpers -/

theorem rdiv_ok {d q : Int} (hd : 0 < d) :
    rdiv d q = .ok (PyRange.toList ⟨q * d, q * d + d, 1⟩) := by
  unfold rdiv
  rw [if_neg (by omega)]

theorem mem_rdiv_iff {d q n : Int} (hd : 0 < d) :
    n ∈ PyRange.toList ⟨q * d, q * d + d, 1⟩ ↔ n / d = q := by
  rw [PyRange.mem_toList_pos (by norm_num)]
  simp only [Int.emod_one, and_true]
  obtain ⟨h1a, h1b⟩ := Int.le_ediv_iff_mul_le (a := q) (b := n) hd
  obtain ⟨h2a, h2b⟩ :=
    Int.ediv_lt_iff_lt_mul (a := n) (b := q + 1) hd
  have he : (q + 1) * d = q * d + d := by ring
  constructor
  · rintro ⟨ha, hb⟩
    have c1 := h1b ha
    have c2 := h2b (by omega)
    omega
  · intro h
    have c1 := h1a (by omega)
    have c2 := h2a (by omega)
    omega

theorem rmod_ok_range {d p l : Int} (hd : 0 < d) (hp0 : 0 ≤ p) (hpd : p < d)
    (hl : 0 ≤ l) :
    rmod d p ⟨0, l, 1⟩ = .ok (PyRange.toList ⟨p, l, d⟩) := by
  have hlen : PyRange.length ⟨0, l, 1⟩ = l.toNat := by
    simp [PyRange.length]
  rcases eq_or_lt_of_le hl with hl0 | hl0
  · have hlen0 : PyRange.length ⟨0, l, 1⟩ = 0 := by omega
    have hres : PyRange.toList ⟨p, l, d⟩ = [] := by
      have : PyRange.length ⟨p, l, d⟩ = 0 := by
        apply PyRange.length_eq_zero_of_stop_le (by exact hd)
        show l ≤ p
        omega
      simp [PyRange.toList, this]
    unfold rmod
    rw [if_neg (by omega), if_neg (by omega), if_pos hlen0, hres]
  · have hne : PyRange.length ⟨0, l, 1⟩ ≠ 0 := by omega
    have hfl : PyRange.first ⟨0, l, 1⟩ ≤ PyRange.last ⟨0, l, 1⟩ := by
      simp only [PyRange.first, PyRange.last, hlen]
      have : (1 : Int) ≤ (l.toNat : Int) := by omega
      simp only [mul_one]
      omega
    unfold rmod
    rw [if_neg (by omega), if_neg (by omega), if_neg hne, if_neg (by omega)]
    have hstart : PyRange.first ⟨0, l, 1⟩ +
        (p - PyRange.first ⟨0, l, 1⟩ % d) % d = p := by
      simp only [PyRange.first]
      rw [Int.zero_emod, sub_zero, Int.emod_eq_of_lt hp0 hpd]
      ring
    rw [hstart]

/-! ### Mixed-radix position arithmetic over the integers -/

theorem int_ediv_ediv {a b c : Int} (h : 0 ≤ a) (hb : 0 < b) (hc : 0 < c) :
    a / b / c = a / (b * c) := by
  rw [← Int.toNat_of_nonneg h, ← Int.toNat_of_nonneg hb.le,
    ← Int.toNat_of_nonneg hc.le, ← Int.natCast_div, ← Int.natCast_div,
    ← Nat.cast_mul, ← Int.natCast_div, Nat.div_div_eq_div_mul]

theorem int_mixed_unique {L0 L1 p0 p1 p2 n : Int}
    (hL0 : 0 < L0) (hL1 : 0 < L1) (hn : 0 ≤ n)
    (h0 : n % L0 = p0) (h1 : (n / L0) % L1 = p1)
    (h2 : n / (L0 * L1) = p2) :
    n = p0 + L0 * p1 + L0 * L1 * p2 := by
  have e1 := Int.ediv_add_emod n L0
  have e2 := Int.ediv_add_emod (n / L0) L1
  have e3 : n / L0 / L1 = n / (L0 * L1) := int_ediv_ediv hn hL0 hL1
  rw [h0] at e1
  rw [h1, e3, h2] at e2
  rw [← e1, ← e2]
  ring

theorem int_mixed_components {L0 L1 L2 p0 p1 p2 : Nat}
    (h0 : p0 < L0) (h1 : p1 < L1) (h2 : p2 < L2) :
    (((p0 + L0 * p1 + L0 * L1 * p2 : Nat) : Int) % (L0 : Int) = (p0 : Int)) ∧
    ((((p0 + L0 * p1 + L0 * L1 * p2 : Nat) : Int) / (L0 : Int)) % (L1 : Int)
      = (p1 : Int)) ∧
    (((p0 + L0 * p1 + L0 * L1 * p2 : Nat) : Int) / ((L0 : Int) * (L1 : Int))
      = (p2 : Int)) := by
  obtain ⟨c0, c1, c2⟩ := nat_compose_components h0 h1 h2
  refine ⟨?_, ?_, ?_⟩
  · rw [← Int.natCast_mod, c0]
  · rw [← Int.natCast_div, ← Int.natCast_mod, c1]
  · rw [← Nat.cast_mul, ← Int.natCast_div, c2]

theorem nat_compose_div {L0 p0 : Nat} (h0 : p0 < L0) (m : Nat) :
    (p0 + L0 * m) / L0 = m := by
  rw [Nat.add_mul_div_left _ _ (by omega), Nat.div_eq_of_lt h0, Nat.zero_add]

/-- The three candidate index sets of `vector_range.index` intersect in
exactly the mixed-radix composition of the three slot positions. -/
theorem candidates_filter {L0 L1 L2 p0 p1 p2 : Nat}
    (h0 : p0 < L0) (h1 : p1 < L1) (h2 : p2 < L2) :
    (PyRange.toList ⟨(p0 : Int), (L0 : Int) * L1 * L2, (L0 : Int)⟩).filter
      (fun t =>
        decide (t ∈ ((PyRange.toList
            ⟨(p1 : Int), (L1 : Int) * L2, (L1 : Int)⟩).map
          (fun a => PyRange.toList ⟨a * L0, a * L0 + L0, 1⟩)).flatten) &&
        decide (t ∈ PyRange.toList ⟨(p2 : Int) * ((L0 : Int) * L1),
          (p2 : Int) * ((L0 : Int) * L1) + (L0 : Int) * L1, 1⟩)) =
    [((p0 + L0 * p1 + L0 * L1 * p2 : Nat) : Int)] := by
  have hL0 : (0 : Int) < (L0 : Int) := by exact_mod_cast (by omega : 0 < L0)
  have hL1 : (0 : Int) < (L1 : Int) := by exact_mod_cast (by omega : 0 < L1)
  have hL01 : (0 : Int) < (L0 : Int) * (L1 : Int) := mul_pos hL0 hL1
  obtain ⟨c0, c1, c2⟩ := int_mixed_components h0 h1 h2
  have htle : p0 ≤ p0 + L0 * p1 + L0 * L1 * p2 :=
    le_trans (Nat.le_add_right _ _) (Nat.le_add_right _ _)
  have hsplit : p0 + L0 * p1 + L0 * L1 * p2 = p0 + L0 * (p1 + L1 * p2) := by
    ring
  have hlt2 : p1 + L1 * p2 < L1 * L2 := by
    have := nat_compose_lt (show 0 < 1 by norm_num) h1 h2
    simpa using this
  apply filter_eq_singleton
  · exact PyRange.nodup_toList (show (L0 : Int) ≠ 0 from hL0.ne')
  · rw [PyRange.mem_toList_pos (show (0 : Int) < (L0 : Int) from hL0)]
    dsimp only
    refine ⟨by exact_mod_cast htle, ?_, ?_⟩
    · show ((p0 + L0 * p1 + L0 * L1 * p2 : Nat) : Int) <
        (L0 : Int) * L1 * L2
      exact_mod_cast nat_compose_lt h0 h1 h2
    · apply Int.emod_eq_emod_iff_emod_sub_eq_zero.1
      rw [c0, Int.emod_eq_of_lt (by positivity)
        (by exact_mod_cast h0)]
  · simp only [Bool.and_eq_true, decide_eq_true_eq]
    constructor
    · rw [List.mem_flatten]
      refine ⟨PyRange.toList ⟨((p1 + L1 * p2 : Nat) : Int) * L0,
          ((p1 + L1 * p2 : Nat) : Int) * L0 + L0, 1⟩,
        List.mem_map.2 ⟨((p1 + L1 * p2 : Nat) : Int), ?_, rfl⟩, ?_⟩
      · rw [PyRange.mem_toList_pos (show (0 : Int) < (L1 : Int) from hL1)]
        dsimp only
        refine ⟨by exact_mod_cast Nat.le_add_right _ _, ?_, ?_⟩
        · show ((p1 + L1 * p2 : Nat) : Int) < (L1 : Int) * L2
          exact_mod_cast hlt2
        · have : ((p1 + L1 * p2 : Nat) : Int) - (p1 : Int) =
              (L1 : Int) * p2 := by push_cast; ring
          rw [this, Int.mul_emod_right]
      · rw [mem_rdiv_iff hL0]
        have : (p0 + L0 * p1 + L0 * L1 * p2) / L0 = p1 + L1 * p2 := by
          rw [hsplit, nat_compose_div h0]
        exact_mod_cast this
    · rw [mem_rdiv_iff hL01]
      exact c2
  · intro n hn hpred
    simp only [Bool.and_eq_true, decide_eq_true_eq] at hpred
    obtain ⟨hj, hk⟩ := hpred
    rw [PyRange.mem_toList_pos (show (0 : Int) < (L0 : Int) from hL0)] at hn
    dsimp only at hn
    obtain ⟨hge, hlt, hmod⟩ := hn
    have hn0 : (0 : Int) ≤ n := le_trans (by positivity) hge
    have hnm : n % (L0 : Int) = (p0 : Int) := by
      have hiff := Int.emod_eq_emod_iff_emod_sub_eq_zero.2 hmod
      rw [hiff, Int.emod_eq_of_lt (by positivity) (by exact_mod_cast h0)]
    rw [List.mem_flatten] at hj
    obtain ⟨lst, hlst, hnlst⟩ := hj
    rw [List.mem_map] at hlst
    obtain ⟨a, ha, rfl⟩ := hlst
    rw [mem_rdiv_iff hL0] at hnlst
    rw [PyRange.mem_toList_pos (show (0 : Int) < (L1 : Int) from hL1)] at ha
    dsimp only at ha
    obtain ⟨hap, halt, hamod⟩ := ha
    have ham : a % (L1 : Int) = (p1 : Int) := by
      have hiff := Int.emod_eq_emod_iff_emod_sub_eq_zero.2 hamod
      rw [hiff, Int.emod_eq_of_lt (by positivity) (by exact_mod_cast h1)]
    rw [mem_rdiv_iff hL01] at hk
    have hcomp1 : (n / (L0 : Int)) % (L1 : Int) = (p1 : Int) := by
      rw [hnlst]; exact ham
    have := int_mixed_unique hL0 hL1 hn0 hnm hcomp1 hk
    rw [this]
    push_cast
    try ring

namespace vector_range

theorem indexOf_none0 {r : vector_range} {v : Vector}
    (h0 : (r.rangeAt 0).index (v.get (r.order.axisAt 0)) = none) :
    r.indexOf v = .error .valueError := by
  simp only [indexOf, h0]

theorem indexOf_none1 {r : vector_range} {v : Vector} {p0 : Nat}
    (h0 : (r.rangeAt 0).index (v.get (r.order.axisAt 0)) = some p0)
    (h1 : (r.rangeAt 1).index (v.get (r.order.axisAt 1)) = none) :
    r.indexOf v = .error .valueError := by
  obtain ⟨hp0, -⟩ := PyRange.index_eq_some h0
  have hL0 : (0 : Int) < ((r.rangeAt 0).length : Int) := by
    exact_mod_cast (by omega : 0 < (r.rangeAt 0).length)
  have hr1 := rmod_ok_range (d := ((r.rangeAt 0).length : Int))
    (p := (p0 : Int))
    (l := ((r.rangeAt 0).length : Int) * ((r.rangeAt 1).length : Int) *
      ((r.rangeAt 2).length : Int))
    hL0 (by positivity) (by exact_mod_cast hp0) (by positivity)
  simp only [indexOf, h0, hr1, h1]

theorem indexOf_none2 {r : vector_range} {v : Vector} {p0 p1 : Nat}
    (h0 : (r.rangeAt 0).index (v.get (r.order.axisAt 0)) = some p0)
    (h1 : (r.rangeAt 1).index (v.get (r.order.axisAt 1)) = some p1)
    (h2 : (r.rangeAt 2).index (v.get (r.order.axisAt 2)) = none) :
    r.indexOf v = .error .valueError := by
  obtain ⟨hp0, -⟩ := PyRange.index_eq_some h0
  obtain ⟨hp1, -⟩ := PyRange.index_eq_some h1
  have hL0 : (0 : Int) < ((r.rangeAt 0).length : Int) := by
    exact_mod_cast (by omega : 0 < (r.rangeAt 0).length)
  have hr1 := rmod_ok_range (d := ((r.rangeAt 0).length : Int))
    (p := (p0 : Int))
    (l := ((r.rangeAt 0).length : Int) * ((r.rangeAt 1).length : Int) *
      ((r.rangeAt 2).length : Int))
    hL0 (by positivity) (by exact_mod_cast hp0) (by positivity)
  have hdiv : ((r.rangeAt 0).length : Int) * ((r.rangeAt 1).length : Int) *
      ((r.rangeAt 2).length : Int) / ((r.rangeAt 0).length : Int) =
      ((r.rangeAt 1).length : Int) * ((r.rangeAt 2).length : Int) := by
    rw [mul_assoc, Int.mul_ediv_cancel_left _ hL0.ne']
  have hL1 : (0 : Int) < ((r.rangeAt 1).length : Int) := by
    exact_mod_cast (by omega : 0 < (r.rangeAt 1).length)
  have hr2 := rmod_ok_range (d := ((r.rangeAt 1).length : Int))
    (p := (p1 : Int))
    (l := ((r.rangeAt 1).length : Int) * ((r.rangeAt 2).length : Int))
    hL1 (by positivity) (by exact_mod_cast hp1) (by positivity)
  have hmap := mapM_ok
    (l := PyRange.toList ⟨(p1 : Int),
      ((r.rangeAt 1).length : Int) * ((r.rangeAt 2).length : Int),
      ((r.rangeAt 1).length : Int)⟩)
    (f := fun a => rdiv ((r.rangeAt 0).length : Int) a)
    (g := fun a => PyRange.toList ⟨a * ((r.rangeAt 0).length : Int),
      a * ((r.rangeAt 0).length : Int) + ((r.rangeAt 0).length : Int), 1⟩)
    (fun a _ => rdiv_ok hL0)
  simp only [indexOf, h0, hr1, h1, hdiv, hr2, hmap, h2]

theorem indexOf_some {r : vector_range} {v : Vector} {p0 p1 p2 : Nat}
    (h0 : (r.rangeAt 0).index (v.get (r.order.axisAt 0)) = some p0)
    (h1 : (r.rangeAt 1).index (v.get (r.order.axisAt 1)) = some p1)
    (h2 : (r.rangeAt 2).index (v.get (r.order.axisAt 2)) = some p2) :
    r.indexOf v =
      match r.window with
      | none => .ok ((p0 + (r.rangeAt 0).length * p1 +
          (r.rangeAt 0).length * (r.rangeAt 1).length * p2 : Nat) : Int)
      | some w =>
        match w.index ((p0 + (r.rangeAt 0).length * p1 +
            (r.rangeAt 0).length * (r.rangeAt 1).length * p2 : Nat) : Int) with
        | none => .error .valueError
        | some pos => .ok (pos : Int) := by
  obtain ⟨hp0, -⟩ := PyRange.index_eq_some h0
  obtain ⟨hp1, -⟩ := PyRange.index_eq_some h1
  obtain ⟨hp2, -⟩ := PyRange.index_eq_some h2
  have hL0 : (0 : Int) < ((r.rangeAt 0).length : Int) := by
    exact_mod_cast (by omega : 0 < (r.rangeAt 0).length)
  have hL1 : (0 : Int) < ((r.rangeAt 1).length : Int) := by
    exact_mod_cast (by omega : 0 < (r.rangeAt 1).length)
  have hL01 : (0 : Int) < ((r.rangeAt 0).length : Int) *
      ((r.rangeAt 1).length : Int) := mul_pos hL0 hL1
  have hr1 := rmod_ok_range (d := ((r.rangeAt 0).length : Int))
    (p := (p0 : Int))
    (l := ((r.rangeAt 0).length : Int) * ((r.rangeAt 1).length : Int) *
      ((r.rangeAt 2).length : Int))
    hL0 (by positivity) (by exact_mod_cast hp0) (by positivity)
  have hdiv : ((r.rangeAt 0).length : Int) * ((r.rangeAt 1).length : Int) *
      ((r.rangeAt 2).length : Int) / ((r.rangeAt 0).length : Int) =
      ((r.rangeAt 1).length : Int) * ((r.rangeAt 2).length : Int) := by
    rw [mul_assoc, Int.mul_ediv_cancel_left _ hL0.ne']
  have hr2 := rmod_ok_range (d := ((r.rangeAt 1).length : Int))
    (p := (p1 : Int))
    (l := ((r.rangeAt 1).length : Int) * ((r.rangeAt 2).length : Int))
    hL1 (by positivity) (by exact_mod_cast hp1) (by positivity)
  have hmap := mapM_ok
    (l := PyRange.toList ⟨(p1 : Int),
      ((r.rangeAt 1).length : Int) * ((r.rangeAt 2).length : Int),
      ((r.rangeAt 1).length : Int)⟩)
    (f := fun a => rdiv ((r.rangeAt 0).length : Int) a)
    (g := fun a => PyRange.toList ⟨a * ((r.rangeAt 0).length : Int),
      a * ((r.rangeAt 0).length : Int) + ((r.rangeAt 0).length : Int), 1⟩)
    (fun a _ => rdiv_ok hL0)
  have hrk := rdiv_ok (d := ((r.rangeAt 0).length : Int) *
    ((r.rangeAt 1).length : Int)) (q := (p2 : Int)) hL01
  have hfil := candidates_filter hp0 hp1 hp2
  simp only [indexOf, h0, hr1, h1, hdiv, hr2, hmap, h2, hrk, hfil]

theorem atRaw_get0 (r : vector_range) (raw : Nat) :
    (r.atRaw raw).get (r.order.axisAt 0) =
      (r.rangeAt 0).get (raw % (r.rangeAt 0).length) := by
  show (placeByOrder r.order _).get _ = _
  rw [get_placeByOrder, Order.slotOf_axisAt]

theorem atRaw_get1 (r : vector_range) (raw : Nat) :
    (r.atRaw raw).get (r.order.axisAt 1) =
      (r.rangeAt 1).get
        ((raw / (r.rangeAt 0).length) % (r.rangeAt 1).length) := by
  show (placeByOrder r.order _).get _ = _
  rw [get_placeByOrder, Order.slotOf_axisAt]

theorem atRaw_get2 (r : vector_range) (raw : Nat) :
    (r.atRaw raw).get (r.order.axisAt 2) =
      (r.rangeAt 2).get
        (raw / ((r.rangeAt 0).length * (r.rangeAt 1).length)) := by
  show (placeByOrder r.order _).get _ = _
  rw [get_placeByOrder, Order.slotOf_axisAt]

theorem atRaw_eq {r : vector_range} {raw : Nat} {v : Vector}
    (e0 : (r.rangeAt 0).get (raw % (r.rangeAt 0).length) =
      v.get (r.order.axisAt 0))
    (e1 : (r.rangeAt 1).get
      ((raw / (r.rangeAt 0).length) % (r.rangeAt 1).length) =
      v.get (r.order.axisAt 1))
    (e2 : (r.rangeAt 2).get
      (raw / ((r.rangeAt 0).length * (r.rangeAt 1).length)) =
      v.get (r.order.axisAt 2)) :
    r.atRaw raw = v := by
  apply vector_eq_of_get
  intro a
  have hk := Order.axisAt_slotOf r.order a
  rcases hs : r.order.slotOf a with ⟨kv, hkv⟩
  rw [hs] at hk
  interval_cases kv
  · have hfin : (⟨0, hkv⟩ : Fin 3) = 0 := rfl
    rw [hfin] at hk
    rw [← hk, atRaw_get0]
    exact e0
  · have hfin : (⟨1, hkv⟩ : Fin 3) = 1 := rfl
    rw [hfin] at hk
    rw [← hk, atRaw_get1]
    exact e1
  · have hfin : (⟨2, hkv⟩ : Fin 3) = 2 := rfl
    rw [hfin] at hk
    rw [← hk, atRaw_get2]
    exact e2

/-- Soundness of the inverse lookup: a successful `index` names a valid
logical index whose element lookup returns the queried vector. -/
theorem getE_of_indexOf_ok {r : vector_range} {v : Vector} {n : Int}
    (h : r.indexOf v = .ok n) :
    0 ≤ n ∧ n < (r.len : Int) ∧ r.getE n = .ok v := by
  cases hi0 : (r.rangeAt 0).index (v.get (r.order.axisAt 0)) with
  | none => rw [indexOf_none0 hi0] at h; exact absurd h (by simp)
  | some p0 =>
  cases hi1 : (r.rangeAt 1).index (v.get (r.order.axisAt 1)) with
  | none => rw [indexOf_none1 hi0 hi1] at h; exact absurd h (by simp)
  | some p1 =>
  cases hi2 : (r.rangeAt 2).index (v.get (r.order.axisAt 2)) with
  | none => rw [indexOf_none2 hi0 hi1 hi2] at h; exact absurd h (by simp)
  | some p2 =>
  rw [indexOf_some hi0 hi1 hi2] at h
  obtain ⟨hp0, hg0⟩ := PyRange.index_eq_some hi0
  obtain ⟨hp1, hg1⟩ := PyRange.index_eq_some hi1
  obtain ⟨hp2, hg2⟩ := PyRange.index_eq_some hi2
  obtain ⟨c0, c1, c2⟩ := nat_compose_components hp0 hp1 hp2
  have htlt : p0 + (r.rangeAt 0).length * p1 +
      (r.rangeAt 0).length * (r.rangeAt 1).length * p2 < r.rawLen :=
    nat_compose_lt hp0 hp1 hp2
  have hat : r.atRaw (p0 + (r.rangeAt 0).length * p1 +
      (r.rangeAt 0).length * (r.rangeAt 1).length * p2) = v :=
    atRaw_eq (by rw [c0]; exact hg0) (by rw [c1]; exact hg1)
      (by rw [c2]; exact hg2)
  cases hw : r.window with
  | none =>
    rw [hw] at h
    dsimp only at h
    simp only [Except.ok.injEq] at h
    subst h
    have hlen : r.len = r.rawLen := by simp [len, hw]
    have hbound : ((p0 + (r.rangeAt 0).length * p1 +
        (r.rangeAt 0).length * (r.rangeAt 1).length * p2 : Nat) : Int) <
        (r.len : Int) := by
      rw [hlen]; exact_mod_cast htlt
    refine ⟨by positivity, hbound, ?_⟩
    simp only [getE, hw]
    rw [if_neg (not_lt.2 (by positivity : (0 : Int) ≤ _)),
      if_pos ⟨by positivity, hbound⟩]
    rw [getRawE_ok htlt, hat]
  | some w =>
    rw [hw] at h
    dsimp only at h
    cases hwi : w.index ((p0 + (r.rangeAt 0).length * p1 +
        (r.rangeAt 0).length * (r.rangeAt 1).length * p2 : Nat) : Int) with
    | none => rw [hwi] at h; exact absurd h (by simp)
    | some pos =>
    rw [hwi] at h
    dsimp only at h
    simp only [Except.ok.injEq] at h
    subst h
    obtain ⟨hposl, hwget⟩ := PyRange.index_eq_some hwi
    have hlen : r.len = w.length := by simp [len, hw]
    have hbound : ((pos : Nat) : Int) < (r.len : Int) := by
      rw [hlen]; exact_mod_cast hposl
    refine ⟨by positivity, hbound, ?_⟩
    simp only [getE, hw]
    rw [if_neg (not_lt.2 (by positivity : (0 : Int) ≤ _)),
      if_pos ⟨by positivity, hbound⟩]
    have hc : ((pos : Int)).toNat = pos := by simp
    rw [hc, hwget, getRawE_ok htlt, hat]

/-- Completeness of the inverse lookup on a well-formed range: the vector a
logical index yields is found back at exactly that index. -/
theorem indexOf_of_getE {r : vector_range} (hWF : r.WF) {i : Nat}
    (hi : i < r.len) {v : Vector} (h : r.getE (i : Int) = .ok v) :
    r.indexOf v = .ok (i : Int) := by
  obtain ⟨hok, hge, hlt⟩ := getE_ok_WF hWF hi
  rw [h] at hok
  obtain rfl := Except.ok.inj hok
  have hNlt : (r.rawOf i).toNat < r.rawLen := by omega
  obtain ⟨hL0, hL1, hL2⟩ := rawLen_pos_parts (r := r) (by omega)
  have hp0 : (r.rawOf i).toNat % (r.rangeAt 0).length <
      (r.rangeAt 0).length := Nat.mod_lt _ hL0
  have hp1 : ((r.rawOf i).toNat / (r.rangeAt 0).length) %
      (r.rangeAt 1).length < (r.rangeAt 1).length := Nat.mod_lt _ hL1
  have hp2 : (r.rawOf i).toNat /
      ((r.rangeAt 0).length * (r.rangeAt 1).length) <
      (r.rangeAt 2).length := by
    rw [Nat.div_lt_iff_lt_mul (Nat.mul_pos hL0 hL1)]
    calc (r.rawOf i).toNat < r.rawLen := hNlt
      _ = (r.rangeAt 2).length *
          ((r.rangeAt 0).length * (r.rangeAt 1).length) := by
        unfold rawLen; ring
  have hidx0 : (r.rangeAt 0).index
      ((r.atRaw (r.rawOf i).toNat).get (r.order.axisAt 0)) =
      some ((r.rawOf i).toNat % (r.rangeAt 0).length) := by
    rw [atRaw_get0]
    exact PyRange.index_get (WF_rangeAt_step_ne hWF 0) hp0
  have hidx1 : (r.rangeAt 1).index
      ((r.atRaw (r.rawOf i).toNat).get (r.order.axisAt 1)) =
      some (((r.rawOf i).toNat / (r.rangeAt 0).length) %
        (r.rangeAt 1).length) := by
    rw [atRaw_get1]
    exact PyRange.index_get (WF_rangeAt_step_ne hWF 1) hp1
  have hidx2 : (r.rangeAt 2).index
      ((r.atRaw (r.rawOf i).toNat).get (r.order.axisAt 2)) =
      some ((r.rawOf i).toNat /
        ((r.rangeAt 0).length * (r.rangeAt 1).length)) := by
    rw [atRaw_get2]
    exact PyRange.index_get (WF_rangeAt_step_ne hWF 2) hp2
  rw [indexOf_some hidx0 hidx1 hidx2]
  have hdec := nat_decompose (r.rangeAt 0).length (r.rangeAt 1).length
    (r.rawOf i).toNat
  cases hw : r.window with
  | none =>
    have hid : r.rawOf i = (i : Int) := by simp [rawOf, hw]
    simp only [hdec]
    rw [hid]
    simp
  | some w =>
    have hid : r.rawOf i = w.get i := by simp [rawOf, hw]
    have hcast : (((r.rawOf i).toNat : Nat) : Int) = w.get i := by
      rw [Int.toNat_of_nonneg hge, hid]
    simp only [hdec, hcast]
    have hlen : r.len = w.length := by simp [len, hw]
    rw [PyRange.index_get ((hWF.2.2.2 w hw).1) (by rw [← hlen]; exact hi)]

theorem elemsE_ok_WF {r : vector_range} (hWF : r.WF) :
    r.elemsE = .ok ((List.range r.len).map
      (fun i => r.atRaw (r.rawOf i).toNat)) := by
  unfold elemsE
  exact mapM_ok (fun i hi =>
    (getE_ok_WF hWF (List.mem_range.1 hi)).1)

/-- `index` only ever fails with the "not in range" `ValueError`: the
`assert len(result) == 1` of the source never fires. -/
theorem indexOf_never_assertion {r : vector_range} {v : Vector} {e : PyErr}
    (h : r.indexOf v = .error e) : e = .valueError := by
  cases hi0 : (r.rangeAt 0).index (v.get (r.order.axisAt 0)) with
  | none =>
    rw [indexOf_none0 hi0] at h
    exact (Except.error.inj h).symm
  | some p0 =>
  cases hi1 : (r.rangeAt 1).index (v.get (r.order.axisAt 1)) with
  | none =>
    rw [indexOf_none1 hi0 hi1] at h
    exact (Except.error.inj h).symm
  | some p1 =>
  cases hi2 : (r.rangeAt 2).index (v.get (r.order.axisAt 2)) with
  | none =>
    rw [indexOf_none2 hi0 hi1 hi2] at h
    exact (Except.error.inj h).symm
  | some p2 =>
  rw [indexOf_some hi0 hi1 hi2] at h
  cases hw : r.window with
  | none =>
    rw [hw] at h
    dsimp only at h
    exact absurd h (by simp)
  | some w =>
    rw [hw] at h
    dsimp only at h
    cases hwi : w.index ((p0 + (r.rangeAt 0).length * p1 +
        (r.rangeAt 0).length * (r.rangeAt 1).length * p2 : Nat) : Int) with
    | none =>
      rw [hwi] at h
      dsimp only at h
      exact (Except.error.inj h).symm
    | some pos =>
      rw [hwi] at h
      dsimp only at h
      exact absurd h (by simp)

theorem indexOf_ok_or_err (r : vector_range) (v : Vector) :
    (∃ n, r.indexOf v = .ok n) ∨ r.indexOf v = .error .valueError := by
  cases h : r.indexOf v with
  | ok n => exact .inl ⟨n, rfl⟩
  | error e =>
    right
    rw [indexOf_never_assertion h]

theorem containsE_of_indexOf_ok {r : vector_range} {v : Vector} {n : Int}
    (h : r.indexOf v = .ok n) : r.containsE v = .ok true := by
  simp [containsE, h]

theorem containsE_of_indexOf_err {r : vector_range} {v : Vector}
    (h : r.indexOf v = .error .valueError) : r.containsE v = .ok false := by
  simp [containsE, h]

theorem countE_of_containsE {r : vector_range} {v : Vector} {b : Bool}
    (h : r.containsE v = .ok b) :
    r.countE v = .ok (if b then 1 else 0) := by
  cases b <;> simp [countE, h]

/-- On a well-formed range, a successful inverse lookup is exactly
membership in the iterated element sequence. -/
theorem indexOf_ok_iff_mem {r : vector_range} (hWF : r.WF) (v : Vector) :
    (∃ n, r.indexOf v = .ok n) ↔
      ∃ i : Nat, i < r.len ∧ r.getE (i : Int) = .ok v := by
  constructor
  · rintro ⟨n, hn⟩
    obtain ⟨h0, hlt, hget⟩ := getE_of_indexOf_ok hn
    refine ⟨n.toNat, by omega, ?_⟩
    rw [Int.toNat_of_nonneg h0]
    exact hget
  · rintro ⟨i, hi, hget⟩
    exact ⟨(i : Int), indexOf_of_getE hWF hi hget⟩

end vector_range

/-! ### The lexicographic comparison loop -/

theorem vectorLt_irrefl (a : Vector) : vectorLt a a = false := by
  simp only [vectorLt, decide_eq_false_iff_not]
  omega

theorem vectorLt_asymm {a b : Vector} (h : vectorLt a b = true) :
    vectorLt b a = false := by
  simp only [vectorLt, decide_eq_true_eq] at h
  simp only [vectorLt, decide_eq_false_iff_not]
  omega

theorem vectorLt_ne {a b : Vector} (h : vectorLt a b = true) : a ≠ b := by
  intro he
  rw [he, vectorLt_irrefl] at h
  exact absurd h (by simp)

theorem vectorLt_total {a b : Vector} (h1 : vectorLt a b = false)
    (h2 : vectorLt b a = false) : a = b := by
  simp only [vectorLt, decide_eq_false_iff_not] at h1 h2
  cases a; cases b
  simp only [Vector.mk.injEq]
  push_neg at h1 h2
  dsimp only at h1 h2
  refine ⟨?_, ?_, ?_⟩ <;> omega

theorem ltZip_ok_true_iff : ∀ (l1 l2 : List Vector),
    ltZip l1 l2 = .ok true ↔
      ∃ (i : Nat) (a b : Vector),
        l1[i]? = some a ∧ l2[i]? = some b ∧ vectorLt a b = true ∧
        ∀ j < i, l1[j]? = l2[j]?
  | [], [] => by
    constructor
    · intro h
      exact absurd h (by simp [ltZip])
    · rintro ⟨i, a, b, ha, -⟩
      exact absurd ha (by simp)
  | [], b :: bs => by
    constructor
    · intro h
      exact absurd h (by simp [ltZip])
    · rintro ⟨i, a, b', ha, -⟩
      exact absurd ha (by simp)
  | a :: as, [] => by
    constructor
    · intro h
      exact absurd h (by simp [ltZip])
    · rintro ⟨i, a', b, -, hb, -⟩
      exact absurd hb (by simp)
  | a :: as, b :: bs => by
    by_cases hlt : vectorLt a b = true
    · simp only [ltZip, hlt, if_true]
      constructor
      · intro _
        exact ⟨0, a, b, by simp, by simp, hlt, by omega⟩
      · intro _
        trivial
    · rw [Bool.not_eq_true] at hlt
      by_cases hgt : vectorLt b a = true
      · simp only [ltZip, hlt, Bool.false_eq_true, if_false, hgt, if_true]
        constructor
        · intro h
          exact absurd h (by simp)
        · rintro ⟨i, x, y, hx, hy, hxy, hfst⟩
          cases i with
          | zero =>
            rw [List.getElem?_cons_zero] at hx hy
            obtain rfl : a = x := Option.some.inj hx
            obtain rfl : b = y := Option.some.inj hy
            rw [vectorLt_asymm hxy] at hgt
            exact absurd hgt (by simp)
          | succ j =>
            have h0 := hfst 0 (by omega)
            rw [List.getElem?_cons_zero, List.getElem?_cons_zero] at h0
            obtain rfl : a = b := Option.some.inj h0
            rw [vectorLt_irrefl] at hgt
            exact absurd hgt (by simp)
      · rw [Bool.not_eq_true] at hgt
        have hab : a = b := vectorLt_total hlt hgt
        subst hab
        simp only [ltZip, hlt, Bool.false_eq_true, if_false]
        rw [ltZip_ok_true_iff as bs]
        constructor
        · rintro ⟨i, x, y, hx, hy, hxy, hfst⟩
          refine ⟨i + 1, x, y, by simpa using hx, by simpa using hy, hxy, ?_⟩
          intro j hj
          cases j with
          | zero => simp
          | succ k =>
            rw [List.getElem?_cons_succ, List.getElem?_cons_succ]
            exact hfst k (by omega)
        · rintro ⟨i, x, y, hx, hy, hxy, hfst⟩
          cases i with
          | zero =>
            rw [List.getElem?_cons_zero] at hx hy
            obtain rfl : a = x := Option.some.inj hx
            obtain rfl : a = y := Option.some.inj hy
            rw [vectorLt_irrefl] at hxy
            exact absurd hxy (by simp)
          | succ j =>
            rw [List.getElem?_cons_succ] at hx hy
            refine ⟨j, x, y, hx, hy, hxy, ?_⟩
            intro k hk
            have := hfst (k + 1) (by omega)
            rwa [List.getElem?_cons_succ, List.getElem?_cons_succ] at this

theorem ltZip_err_iff : ∀ (l1 l2 : List Vector),
    ltZip l1 l2 = .error .typeError ↔
      l1 ≠ l2 ∧ (l1 <+: l2 ∨ l2 <+: l1)
  | [], [] => by simp [ltZip]
  | [], b :: bs => by simp [ltZip]
  | a :: as, [] => by simp [ltZip]
  | a :: as, b :: bs => by
    by_cases hlt : vectorLt a b = true
    · have hne : a ≠ b := vectorLt_ne hlt
      simp only [ltZip, hlt, if_true]
      constructor
      · intro h
        exact absurd h (by simp)
      · rintro ⟨-, hp | hp⟩ <;>
          exact absurd (List.cons_prefix_cons.1 hp).1 (by simp [hne, Ne.symm hne])
    · rw [Bool.not_eq_true] at hlt
      by_cases hgt : vectorLt b a = true
      · have hne : b ≠ a := vectorLt_ne hgt
        simp only [ltZip, hlt, Bool.false_eq_true, if_false, hgt, if_true]
        constructor
        · intro h
          exact absurd h (by simp)
        · rintro ⟨-, hp | hp⟩ <;>
            exact absurd (List.cons_prefix_cons.1 hp).1
              (by simp [hne, Ne.symm hne])
      · rw [Bool.not_eq_true] at hgt
        have hab : a = b := vectorLt_total hlt hgt
        subst hab
        simp only [ltZip, hlt, Bool.false_eq_true, if_false]
        rw [ltZip_err_iff as bs]
        constructor
        · rintro ⟨hne, hp⟩
          refine ⟨by simp [hne], ?_⟩
          rcases hp with hp | hp
          · exact .inl ((List.prefix_cons_inj a).2 hp)
          · exact .inr ((List.prefix_cons_inj a).2 hp)
        · rintro ⟨hne, hp⟩
          refine ⟨by simpa using hne, ?_⟩
          rcases hp with hp | hp
          · exact .inl ((List.prefix_cons_inj a).1 hp)
          · exact .inr ((List.prefix_cons_inj a).1 hp)

/-! ### Slicing: the window a slice builds versus Python list semantics -/

theorem filterMap_eq_map {α β : Type} {f : α → Option β} {g : α → β} :
    ∀ {l : List α}, (∀ a ∈ l, f a = some (g a)) →
      l.filterMap f = l.map g
  | [], _ => rfl
  | a :: l, h => by
    have hrec : l.filterMap f = l.map g :=
      filterMap_eq_map (fun b hb => h b (List.mem_cons_of_mem a hb))
    simp [List.filterMap_cons, h a (List.mem_cons_self a l), hrec]

theorem PyRange.length_le_of_bounds {w : PyRange} {n : Nat}
    (hs : w.step ≠ 0) (hb : ∀ t ∈ w.toList, 0 ≤ t ∧ t < (n : Int)) :
    w.length ≤ n := by
  classical
  have hnd : (w.toList.map Int.toNat).Nodup := by
    refine List.Nodup.map_on ?_ (PyRange.nodup_toList hs)
    intro x hx y hy hxy
    have hbx := hb x hx
    have hby := hb y hy
    omega
  have hlen : (w.toList.map Int.toNat).length = w.length := by
    simp [PyRange.toList]
  have hsub : (w.toList.map Int.toNat).toFinset ⊆ Finset.range n := by
    intro k hk
    rw [List.mem_toFinset, List.mem_map] at hk
    obtain ⟨t, ht, rfl⟩ := hk
    have := hb t ht
    rw [Finset.mem_range]
    omega
  have hcard := Finset.card_le_card hsub
  rw [Finset.card_range, List.toFinset_card_of_nodup hnd, hlen] at hcard
  exact hcard

namespace vector_range

theorem sliceE_ok {r : vector_range} {sstart sstop sstep : Option Int}
    (hstep : sstep.getD 1 ≠ 0)
    (hle : PyRange.length ⟨sliceStartIdx (r.len : Int) sstart (sstep.getD 1),
      sliceStopIdx (r.len : Int) sstop (sstep.getD 1), sstep.getD 1⟩ ≤
      r.rawLen) :
    r.sliceE sstart sstop sstep = .ok {r with window :=
      (some (PyRange.mk (sliceStartIdx (r.len : Int) sstart (sstep.getD 1))
        (sliceStopIdx (r.len : Int) sstop (sstep.getD 1)) (sstep.getD 1)))} := by
  unfold sliceE
  rw [if_neg hstep, if_neg (by push_neg; intro _; exact hle)]

theorem sliceStartIdx_pos_bounds {n st : Int} (hn : 0 ≤ n) (hst : 0 < st)
    (sstart : Option Int) :
    0 ≤ sliceStartIdx n sstart st ∧ sliceStartIdx n sstart st ≤ n := by
  unfold sliceStartIdx
  rw [if_neg (by omega)]
  cases sstart with
  | none => constructor <;> simp <;> omega
  | some s =>
    by_cases hs : s < 0 <;> simp [hs] <;> omega

theorem sliceStopIdx_pos_bounds {n st : Int} (hn : 0 ≤ n) (hst : 0 < st)
    (sstop : Option Int) :
    0 ≤ sliceStopIdx n sstop st ∧ sliceStopIdx n sstop st ≤ n := by
  unfold sliceStopIdx
  rw [if_neg (by omega)]
  cases sstop with
  | none => constructor <;> simp <;> omega
  | some s =>
    by_cases hs : s < 0 <;> simp [hs] <;> omega

theorem sliceStopIdx_neg_lb {n st : Int} (hn : 0 ≤ n) (hst : st < 0)
    (sstop : Option Int) :
    -1 ≤ sliceStopIdx n sstop st ∧ sliceStopIdx n sstop st ≤ n := by
  unfold sliceStopIdx
  rw [if_pos hst]
  cases sstop with
  | none => dsimp only; omega
  | some s =>
    dsimp only
    by_cases hs : s < 0
    · rw [if_pos hs]; omega
    · rw [if_neg hs]; omega

theorem sliceStartIdx_neg_ub {n st : Int} (hn : 0 ≤ n) (hst : st < 0)
    {sstart : Option Int}
    (hcond : sstart = none ∨ ∃ s, sstart = some s ∧ -n ≤ s ∧ s < n) :
    sliceStartIdx n sstart st ≤ n - 1 := by
  unfold sliceStartIdx
  rw [if_pos hst]
  rcases hcond with rfl | ⟨s, rfl, hs1, hs2⟩
  · dsimp only; omega
  · dsimp only
    by_cases hs : s < 0
    · rw [if_pos hs]; omega
    · rw [if_neg hs]; omega

theorem sliceStartIdx_pos_py {n st : Int} (hn : 0 ≤ n) (hst : 0 < st)
    (sstart sstop : Option Int) :
    sliceStartIdx n sstart st = (pySliceIndices n sstart sstop st).1 := by
  unfold sliceStartIdx pySliceIndices
  rw [if_neg (by omega), if_neg (by omega)]
  cases sstart with
  | none => simp; omega
  | some s => by_cases hs : s < 0 <;> simp [hs] <;> omega

theorem sliceStopIdx_pos_py {n st : Int} (hn : 0 ≤ n) (hst : 0 < st)
    (sstart sstop : Option Int) :
    sliceStopIdx n sstop st = (pySliceIndices n sstart sstop st).2 := by
  unfold sliceStopIdx pySliceIndices
  rw [if_neg (by omega), if_neg (by omega)]
  cases sstop with
  | none => simp
  | some s => by_cases hs : s < 0 <;> simp [hs] <;> omega

theorem sliceStopIdx_neg_py {n st : Int} (hn : 0 ≤ n) (hst : st < 0)
    (sstart : Option Int) {sstop : Option Int}
    (hcond : sstop = none ∨ ∃ s, sstop = some s ∧ -n ≤ s ∧ s < n) :
    sliceStopIdx n sstop st = (pySliceIndices n sstart sstop st).2 := by
  unfold sliceStopIdx pySliceIndices
  rw [if_pos hst, if_pos hst]
  rcases hcond with rfl | ⟨s, rfl, hs1, hs2⟩
  · dsimp only; omega
  · dsimp only
    by_cases hs : s < 0
    · rw [if_pos hs, if_pos hs]
      by_cases hsn : s + n < 0
      · rw [if_pos hsn]; omega
      · rw [if_neg hsn]; omega
    · rw [if_neg hs, if_neg hs]; omega

theorem sliceStartIdx_neg_py {n st : Int} (hn : 0 ≤ n) (hst : st < 0)
    {sstart : Option Int} (sstop : Option Int)
    (hcond : sstart = none ∨ ∃ s, sstart = some s ∧ -n ≤ s ∧ s < n) :
    sliceStartIdx n sstart st = (pySliceIndices n sstart sstop st).1 := by
  unfold sliceStartIdx pySliceIndices
  rw [if_pos hst, if_pos hst]
  rcases hcond with rfl | ⟨s, rfl, hs1, hs2⟩
  · dsimp only; omega
  · dsimp only
    by_cases hs : s < 0
    · rw [if_pos hs, if_pos hs]
      by_cases hsn : s + n < 0
      · rw [if_pos hsn]; omega
      · rw [if_neg hsn]; omega
    · rw [if_neg hs, if_neg hs]; omega

/-- Under the stated bound conditions the window a slice builds has
exactly the element sequence of Python's normalised slice indices. -/
theorem slice_window_eq_py {n : Int} (hn : 0 ≤ n) {sstart sstop : Option Int}
    {st : Int}
    (hcond : 0 < st ∨ (st < 0 ∧
      (sstart = none ∨ ∃ s, sstart = some s ∧ -n ≤ s ∧ s < n) ∧
      (sstop = none ∨ ∃ s, sstop = some s ∧ -n ≤ s))) :
    PyRange.toList ⟨sliceStartIdx n sstart st, sliceStopIdx n sstop st, st⟩ =
    PyRange.toList ⟨(pySliceIndices n sstart sstop st).1,
      (pySliceIndices n sstart sstop st).2, st⟩ := by
  rcases hcond with hpos | ⟨hneg, hcs, hct⟩
  · rw [sliceStartIdx_pos_py hn hpos sstart sstop,
      sliceStopIdx_pos_py hn hpos sstart sstop]
  · have hs1 := sliceStartIdx_neg_py hn hneg sstop hcs
    have hub := sliceStartIdx_neg_ub hn hneg hcs
    rcases hct with rfl | ⟨s, rfl, hsl⟩
    · rw [hs1, sliceStopIdx_neg_py hn hneg sstart (.inl rfl)]
    · by_cases hlt : s < n
      · rw [hs1, sliceStopIdx_neg_py hn hneg sstart
          (.inr ⟨s, rfl, hsl, hlt⟩)]
      · have hcode : sliceStopIdx n (some s) st = n := by
          unfold sliceStopIdx
          rw [if_pos hneg]
          dsimp only
          rw [if_neg (by omega)]
          omega
        have hpy : (pySliceIndices n sstart (some s) st).2 = n - 1 := by
          unfold pySliceIndices
          rw [if_pos hneg]
          dsimp only
          rw [if_neg (by omega)]
          omega
        have e1 : PyRange.length ⟨sliceStartIdx n sstart st,
            sliceStopIdx n (some s) st, st⟩ = 0 := by
          apply PyRange.length_eq_zero_of_start_le hneg
          show sliceStartIdx n sstart st ≤ sliceStopIdx n (some s) st
          rw [hcode]
          omega
        have e2 : PyRange.length ⟨(pySliceIndices n sstart (some s) st).1,
            (pySliceIndices n sstart (some s) st).2, st⟩ = 0 := by
          apply PyRange.length_eq_zero_of_start_le hneg
          show (pySliceIndices n sstart (some s) st).1 ≤
            (pySliceIndices n sstart (some s) st).2
          rw [← hs1, hpy]
          omega
        simp [PyRange.toList, e1, e2]

/-- The slice of an unwindowed well-formed range agrees with the Python
list slice, for every positive-step slice and for negative-step slices
whose bounds normalise into range. -/
theorem slice_spec {r : vector_range} (hWF : r.WF) (hwin : r.window = none)
    (sstart sstop sstep : Option Int)
    (hcond : 0 < sstep.getD 1 ∨ (sstep.getD 1 < 0 ∧
      (sstart = none ∨ ∃ s, sstart = some s ∧ -(r.len : Int) ≤ s ∧
        s < (r.len : Int)) ∧
      (sstop = none ∨ ∃ s, sstop = some s ∧ -(r.len : Int) ≤ s))) :
    ∃ r' l l',
      r.sliceE sstart sstop sstep = .ok r' ∧
      r'.start = r.start ∧ r'.stop = r.stop ∧ r'.step = r.step ∧
      r'.order = r.order ∧
      r.elemsE = .ok l ∧ r'.elemsE = .ok l' ∧
      l' = pyListSlice l sstart sstop (sstep.getD 1) := by
  have hst : sstep.getD 1 ≠ 0 := by
    rcases hcond with h | ⟨h, -⟩ <;> omega
  have hn : (0 : Int) ≤ (r.len : Int) := by positivity
  have hlenr : r.len = r.rawLen := by simp [len, hwin]
  have hbounds : ∀ t ∈ PyRange.toList
      ⟨sliceStartIdx (r.len : Int) sstart (sstep.getD 1),
        sliceStopIdx (r.len : Int) sstop (sstep.getD 1), sstep.getD 1⟩,
      0 ≤ t ∧ t < (r.len : Int) := by
    intro t ht
    rcases hcond with hpos | ⟨hneg, hcs', -⟩
    · rw [PyRange.mem_toList_pos hpos] at ht
      dsimp only at ht
      have h1 := sliceStartIdx_pos_bounds hn hpos sstart
      have h2 := sliceStopIdx_pos_bounds hn hpos sstop
      omega
    · have hb := PyRange.bounds_of_mem_neg hneg ht
      dsimp only at hb
      have h1 := sliceStartIdx_neg_ub hn hneg hcs'
      have h2 := sliceStopIdx_neg_lb hn hneg sstop
      omega
  have hlen_le : PyRange.length
      ⟨sliceStartIdx (r.len : Int) sstart (sstep.getD 1),
        sliceStopIdx (r.len : Int) sstop (sstep.getD 1), sstep.getD 1⟩ ≤
      r.rawLen := by
    rw [← hlenr]
    exact PyRange.length_le_of_bounds hst hbounds
  have hslice := sliceE_ok (r := r) hst hlen_le
  have hWF' : WF {r with window :=
      (some (PyRange.mk (sliceStartIdx (r.len : Int) sstart (sstep.getD 1))
        (sliceStopIdx (r.len : Int) sstop (sstep.getD 1)) (sstep.getD 1)))} := by
    refine ⟨hWF.1, hWF.2.1, hWF.2.2.1, ?_⟩
    intro w' hw'
    obtain rfl := (Option.some.inj hw').symm
    refine ⟨hst, fun t ht => ?_⟩
    have hb := hbounds t ht
    rw [hlenr] at hb
    exact hb
  have hElems' := elemsE_ok_WF hWF'
  refine ⟨_, _, _, hslice, rfl, rfl, rfl, rfl, elemsE_ok_WF hWF, hElems', ?_⟩
  have hlw : len {r with window :=
      (some (PyRange.mk (sliceStartIdx (r.len : Int) sstart (sstep.getD 1))
        (sliceStopIdx (r.len : Int) sstop (sstep.getD 1))
        (sstep.getD 1)))} =
      PyRange.length ⟨sliceStartIdx (r.len : Int) sstart (sstep.getD 1),
        sliceStopIdx (r.len : Int) sstop (sstep.getD 1), sstep.getD 1⟩ :=
    rfl
  have hLfull : ((List.range r.len).map
      (fun i => r.atRaw (r.rawOf i).toNat)).length = r.len := by
    simp
  unfold pyListSlice
  rw [hLfull]
  dsimp only
  rw [← slice_window_eq_py hn hcond]
  have hmapped : (PyRange.toList
      ⟨sliceStartIdx (r.len : Int) sstart (sstep.getD 1),
        sliceStopIdx (r.len : Int) sstop (sstep.getD 1),
        sstep.getD 1⟩).filterMap
      (fun i => ((List.range r.len).map
        (fun j => r.atRaw (r.rawOf j).toNat))[i.toNat]?) =
      (PyRange.toList
      ⟨sliceStartIdx (r.len : Int) sstart (sstep.getD 1),
        sliceStopIdx (r.len : Int) sstop (sstep.getD 1),
        sstep.getD 1⟩).map
        (fun i => r.atRaw (r.rawOf i.toNat).toNat) := by
    apply filterMap_eq_map
    intro t ht
    have hb := hbounds t ht
    have htn : t.toNat < r.len := by omega
    rw [List.getElem?_map, List.getElem?_range htn]
    rfl
  rw [hmapped]
  rw [hlw, PyRange.toList, List.map_map]
  apply List.map_congr_left
  intro i hi
  simp only [Function.comp]
  have hg : rawOf {r with window :=
      (some (PyRange.mk (sliceStartIdx (r.len : Int) sstart (sstep.getD 1))
        (sliceStopIdx (r.len : Int) sstop (sstep.getD 1))
        (sstep.getD 1)))} i =
      PyRange.get ⟨sliceStartIdx (r.len : Int) sstart (sstep.getD 1),
        sliceStopIdx (r.len : Int) sstop (sstep.getD 1), sstep.getD 1⟩ i :=
    rfl
  rw [hg]
  have hro : r.rawOf (PyRange.get
      ⟨sliceStartIdx (r.len : Int) sstart (sstep.getD 1),
        sliceStopIdx (r.len : Int) sstop (sstep.getD 1),
        sstep.getD 1⟩ i).toNat =
      ((PyRange.get ⟨sliceStartIdx (r.len : Int) sstart (sstep.getD 1),
        sliceStopIdx (r.len : Int) sstop (sstep.getD 1),
        sstep.getD 1⟩ i).toNat : Int) := by
    simp [rawOf, hwin]
  rw [hro, Int.toNat_natCast]
  rfl

theorem WF_unwindowed {r : vector_range} (h1 : r.step.x ≠ 0)
    (h2 : r.step.y ≠ 0) (h3 : r.step.z ≠ 0) (hw : r.window = none) :
    r.WF := by
  refine ⟨h1, h2, h3, ?_⟩
  intro w hww
  rw [hw] at hww
  exact absurd hww (by simp)

end vector_range

/-! ## The claims -/

open vector_range

/-- C1 counterexample: the claim quantifies over every non-empty
vector_range, windowed or not. The publicly reachable sliced range
`vector_range(Vector(5, 1, 1), order='xyz')[6:2:-1]` is non-empty (length
3), yet `r[0]` raises `IndexError` (its mis-clamped window points at raw
index 5 of a 5-element raw space), so `r.index(r[0])` cannot return 0. -/
theorem C1_counterexample :
    mkVectorRange ⟨5, 1, 1⟩ none ⟨1, 1, 1⟩ "xyz" = .ok base5 ∧
    base5.sliceE (some 6) (some 2) (some (-1)) = .ok pathological ∧
    pathological.len = 3 ∧
    pathological.getE 0 = .error .indexError :=
  ⟨rfl, rfl, rfl, rfl⟩

/-- C1 (amended): for every well-formed vector_range — non-zero step
components and every window entry a raw index of the full index space, as
holds for every directly constructed range and every in-bounds slice — and
every logical index `0 ≤ i < len(r)`, the element `r[i]` exists and
`r.index(r[i])` returns exactly `i`. -/
theorem C1_roundtrip_amended (r : vector_range) (hWF : r.WF) (i : Nat)
    (hi : i < r.len) :
    ∃ v, r.getE (i : Int) = .ok v ∧ r.indexOf v = .ok (i : Int) := by
  obtain ⟨hok, -, -⟩ := getE_ok_WF hWF hi
  exact ⟨_, hok, indexOf_of_getE hWF hi hok⟩

theorem C1_roundtrip_amended_witness :
    ∃ v, (cube2 .zxy).getE ((3 : Nat) : Int) = .ok v ∧
      (cube2 .zxy).indexOf v = .ok ((3 : Nat) : Int) :=
  C1_roundtrip_amended (cube2 .zxy)
    (WF_unwindowed (by decide) (by decide) (by decide) rfl) 3 (by decide)

/-- C10: right-hand scalar addition and multiplication on a `Vector`
succeed and equal the component-wise broadcasts `v + s` and `v * s` (the
class aliases `__radd__ = __add__` and `__rmul__ = __mul__`), while
scalar-on-the-left subtraction such as `1 - Vector(0, 0, 0)` fails with
`TypeError` because no reverse-subtract method exists. -/
theorem C10_scalar_asymmetry :
    (∀ (s : Int) (v : Vector),
      scalarOpVector .add s v = .ok (v.addS s) ∧
      scalarOpVector .mul s v = .ok (v.mulS s) ∧
      v.addS s = ⟨v.x + s, v.y + s, v.z + s⟩ ∧
      v.mulS s = ⟨v.x * s, v.y * s, v.z * s⟩ ∧
      scalarOpVector .sub s v = .error .typeError) ∧
    scalarOpVector .sub 1 ⟨0, 0, 0⟩ = .error .typeError :=
  ⟨fun _ _ => ⟨rfl, rfl, rfl, rfl, rfl⟩, rfl⟩

/-- C3: slicing a slice does NOT compose in the code — the slice branch of
`__getitem__` resolves the new window against the raw index space,
discarding the existing window (the source even flags it with an `XXX`
comment). Evaluated at `r = vector_range(Vector(3, 1, 1), order='xyz')`:
`r[1:][1:]` yields `[Vector(1, 0, 0)]` whereas `r[2:]` yields
`[Vector(2, 0, 0)]`. -/
theorem C3_slice_of_slice_eval :
    mkVectorRange ⟨3, 1, 1⟩ none ⟨1, 1, 1⟩ "xyz" = .ok triple3 ∧
    triple3.sliceE (some 1) none none =
      .ok {triple3 with window := (some (PyRange.mk 1 3 1))} ∧
    sliceE {triple3 with window := (some (PyRange.mk 1 3 1))}
      (some 1) none none =
      .ok {triple3 with window := (some (PyRange.mk 1 2 1))} ∧
    elemsE {triple3 with window := (some (PyRange.mk 1 2 1))} =
      .ok [⟨1, 0, 0⟩] ∧
    triple3.sliceE (some 2) none none =
      .ok {triple3 with window := (some (PyRange.mk 2 3 1))} ∧
    elemsE {triple3 with window := (some (PyRange.mk 2 3 1))} =
      .ok [⟨2, 0, 0⟩] ∧
    ([⟨1, 0, 0⟩] : List Vector) ≠ [⟨2, 0, 0⟩] :=
  ⟨rfl, rfl, rfl, rfl, rfl, rfl, by decide⟩

/-- C8 counterexample: for the ascending but non-contiguous range
`range(0, 10, 2)`, `rmod(3, 1, range(0, 10, 2))` returns `{1, 4, 7}`,
which is not the set of members of the range with remainder 1 modulo 3
(that set is `{4}`; in particular 1 is not even in the range). -/
theorem C8_counterexample :
    rmod 3 1 ⟨0, 10, 2⟩ = .ok [1, 4, 7] ∧
    (PyRange.toList ⟨0, 10, 2⟩).filter (fun n => decide (n % 3 = 1)) =
      [4] ∧
    (1 : Int) ∉ PyRange.toList ⟨0, 10, 2⟩ :=
  ⟨rfl, rfl, by decide⟩

/-- C2: for every unwindowed well-formed vector_range and every linear
index `i < len(r)`, `r[i]` is obtained by taking position `i mod len(P0)`
along the fastest slot, `(i div len(P0)) mod len(P1)` along the second and
`i div (len(P0) * len(P1))` along the third, mapping each position through
its slot progression and placing the three values back into x, y, z by
order (the `atRaw` forward map, whose per-axis components are spelled out
below); the unit-step 2x2x2 cube with order `'xyz'` yields exactly the
eight-vector sequence of the spec, and every one of the six orders
enumerates those eight lattice points exactly once. -/
theorem C2_forward_mapping :
    (∀ r : vector_range, r.WF → r.window = none → ∀ i : Nat, i < r.len →
      r.getE (i : Int) = .ok (r.atRaw i) ∧
      (r.atRaw i).get (r.order.axisAt 0) =
        (r.rangeAt 0).get (i % (r.rangeAt 0).length) ∧
      (r.atRaw i).get (r.order.axisAt 1) =
        (r.rangeAt 1).get
          ((i / (r.rangeAt 0).length) % (r.rangeAt 1).length) ∧
      (r.atRaw i).get (r.order.axisAt 2) =
        (r.rangeAt 2).get
          (i / ((r.rangeAt 0).length * (r.rangeAt 1).length))) ∧
    (cube2 .xyz).elemsE = .ok cube2xyzList ∧
    (∀ o : Order, ∃ l, (cube2 o).elemsE = .ok l ∧ l.Nodup ∧
      l.Perm cube2xyzList) := by
  refine ⟨?_, rfl, ?_⟩
  · intro r hWF hwin i hi
    obtain ⟨hok, -, -⟩ := getE_ok_WF hWF hi
    have hro : r.rawOf i = (i : Int) := by simp [rawOf, hwin]
    rw [hro, Int.toNat_natCast] at hok
    exact ⟨hok, atRaw_get0 r i, atRaw_get1 r i, atRaw_get2 r i⟩
  · intro o
    cases o <;> exact ⟨_, rfl, by decide, by decide⟩

theorem C2_forward_mapping_witness :
    (cube2 .zxy).getE ((5 : Nat) : Int) = .ok ((cube2 .zxy).atRaw 5) :=
  (C2_forward_mapping.1 (cube2 .zxy)
    (WF_unwindowed (by decide) (by decide) (by decide) rfl) rfl 5
    (by decide)).1

/-- C5: constructing a vector_range raises `ValueError` precisely when the
order string is not one of the six permutations of `'xyz'` or some step
component is zero (the zero step makes the built-in `range` constructor
raise); no other exception can escape, no range object is produced on
failure, and on success the object holds the given step and order with the
stop-only shorthand applied to start/stop. -/
theorem C5_construction_validation (start : Vector) (stop? : Option Vector)
    (step : Vector) (order : String) :
    ((∃ e, mkVectorRange start stop? step order = .error e) ↔
      (parseOrder order = none ∨ step.x = 0 ∨ step.y = 0 ∨ step.z = 0)) ∧
    (∀ e, mkVectorRange start stop? step order = .error e →
      e = .valueError) ∧
    (∀ r, mkVectorRange start stop? step order = .ok r →
      r.step = step ∧ r.window = none ∧ parseOrder order = some r.order ∧
      (stop? = none → r.start = ⟨0, 0, 0⟩ ∧ r.stop = start) ∧
      (∀ sp, stop? = some sp → r.start = start ∧ r.stop = sp)) := by
  cases hpo : parseOrder order with
  | none =>
    refine ⟨⟨fun _ => .inl rfl, fun _ => ⟨.valueError, ?_⟩⟩, ?_, ?_⟩
    · simp [mkVectorRange, hpo]
    · intro e he
      simp only [mkVectorRange, hpo] at he
      exact (Except.error.inj he).symm
    · intro r hr
      simp [mkVectorRange, hpo] at hr
  | some o =>
    by_cases hz : step.x = 0 ∨ step.y = 0 ∨ step.z = 0
    · refine ⟨⟨fun _ => .inr hz, fun _ => ⟨.valueError, ?_⟩⟩, ?_, ?_⟩
      · simp [mkVectorRange, hpo, if_pos hz]
      · intro e he
        simp only [mkVectorRange, hpo, if_pos hz] at he
        exact (Except.error.inj he).symm
      · intro r hr
        simp [mkVectorRange, hpo, if_pos hz] at hr
    · refine ⟨⟨fun he => ?_, fun hor => ?_⟩, ?_, ?_⟩
      · obtain ⟨e, he⟩ := he
        simp [mkVectorRange, hpo, if_neg hz] at he
      · rcases hor with h | h
        · exact absurd h (by simp)
        · exact absurd h hz
      · intro e he
        simp [mkVectorRange, hpo, if_neg hz] at he
      · intro r hr
        simp only [mkVectorRange, hpo, if_neg hz] at hr
        cases stop? with
        | none =>
          obtain rfl := (Except.ok.inj hr).symm
          exact ⟨rfl, rfl, rfl, fun _ => ⟨rfl, rfl⟩,
            fun sp hsp => Option.noConfusion hsp⟩
        | some sp =>
          obtain rfl := (Except.ok.inj hr).symm
          refine ⟨rfl, rfl, rfl, fun hn => Option.noConfusion hn,
            fun sp' hsp' => ?_⟩
          obtain rfl := Option.some.inj hsp'
          exact ⟨rfl, rfl⟩

/-- C4 counterexample: on the two-element range
`vector_range(Vector(2, 1, 1), order='xyz')`, the slice `[:-3:-1]` yields
the single element `[Vector(1, 0, 0)]`, while the Python list slice of the
same sequence yields `[Vector(1, 0, 0), Vector(0, 0, 0)]` — the code
clamps the normalised negative stop to 0 where Python clamps it to the
sentinel -1. -/
theorem C4_counterexample :
    mkVectorRange ⟨2, 1, 1⟩ none ⟨1, 1, 1⟩ "xyz" = .ok pair2 ∧
    pair2.elemsE = .ok [⟨0, 0, 0⟩, ⟨1, 0, 0⟩] ∧
    pair2.sliceE none (some (-3)) (some (-1)) =
      .ok {pair2 with window := (some (PyRange.mk 1 0 (-1)))} ∧
    elemsE {pair2 with window := (some (PyRange.mk 1 0 (-1)))} =
      .ok [⟨1, 0, 0⟩] ∧
    pyListSlice [⟨0, 0, 0⟩, ⟨1, 0, 0⟩] none (some (-3)) (-1) =
      [(⟨1, 0, 0⟩ : Vector), ⟨0, 0, 0⟩] ∧
    ([(⟨1, 0, 0⟩ : Vector)] : List Vector) ≠ [⟨1, 0, 0⟩, ⟨0, 0, 0⟩] :=
  ⟨rfl, rfl, rfl, rfl, rfl, by decide⟩

/-- C4 (amended): for every unwindowed well-formed vector_range, a slice
produces a new range with the same start/stop/step/order whose element
sequence equals the Python list slice `list(r)[sl]` — for every slice with
positive (or omitted) step and arbitrary (negative, omitted, or
out-of-range) bounds, and for negative step whenever the given start is
omitted or lies in `[-len, len)` and the given stop is omitted or is at
least `-len`. -/
theorem C4_slice_semantics_amended {r : vector_range} (hWF : r.WF)
    (hwin : r.window = none) (sstart sstop sstep : Option Int)
    (hcond : 0 < sstep.getD 1 ∨ (sstep.getD 1 < 0 ∧
      (sstart = none ∨ ∃ s, sstart = some s ∧ -(r.len : Int) ≤ s ∧
        s < (r.len : Int)) ∧
      (sstop = none ∨ ∃ s, sstop = some s ∧ -(r.len : Int) ≤ s))) :
    ∃ r' l l',
      r.sliceE sstart sstop sstep = .ok r' ∧
      r'.start = r.start ∧ r'.stop = r.stop ∧ r'.step = r.step ∧
      r'.order = r.order ∧
      r.elemsE = .ok l ∧ r'.elemsE = .ok l' ∧
      l' = pyListSlice l sstart sstop (sstep.getD 1) :=
  slice_spec hWF hwin sstart sstop sstep hcond

theorem C4_slice_semantics_amended_witness :
    ∃ r' l l',
      pair2.sliceE (some 1) none none = .ok r' ∧
      r'.start = pair2.start ∧ r'.stop = pair2.stop ∧
      r'.step = pair2.step ∧ r'.order = pair2.order ∧
      pair2.elemsE = .ok l ∧ r'.elemsE = .ok l' ∧
      l' = pyListSlice l (some 1) none (Option.getD none 1) :=
  C4_slice_semantics_amended
    (WF_unwindowed (by decide) (by decide) (by decide) rfl) rfl
    (some 1) none none (.inl (by norm_num))

/-- C6 counterexample: the claim quantifies over every vector_range. For
the publicly reachable sliced range
`vector_range(Vector(5, 1, 1), order='xyz')[6:2:-1]`, iterating the range
crashes with `IndexError` at the first element — it iterates no
elements — yet `index(Vector(4, 0, 0))` succeeds (returning 1), so
"index succeeds exactly when the vector is among the iterated elements"
fails. -/
theorem C6_counterexample :
    pathological.indexOf ⟨4, 0, 0⟩ = .ok 1 ∧
    pathological.elemsE = .error .indexError ∧
    pathological.containsE ⟨4, 0, 0⟩ = .ok true :=
  ⟨rfl, rfl, rfl⟩

/-- C6 (amended): for every well-formed vector_range (windows confined to
the raw index space, as every in-bounds slice produces) and every vector
`v`: iteration succeeds with some element list `l`; `index(v)` succeeds
exactly when `v ∈ l` and otherwise fails with the "not found" `ValueError`
and never any other exception; and `contains(v)` returns `True` exactly
when `index(v)` succeeds — equivalently, exactly when `v ∈ l`. -/
theorem C6_not_found_amended (r : vector_range) (hWF : r.WF)
    (v : Vector) :
    ∃ l, r.elemsE = .ok l ∧
      ((∃ n, r.indexOf v = .ok n) ↔ v ∈ l) ∧
      (∀ e, r.indexOf v = .error e → e = .valueError) ∧
      (v ∈ l → r.containsE v = .ok true) ∧
      (v ∉ l → r.containsE v = .ok false) := by
  refine ⟨_, elemsE_ok_WF hWF, ?_, ?_, ?_, ?_⟩
  case _ =>
    rw [indexOf_ok_iff_mem hWF]
    constructor
    · rintro ⟨i, hi, hv⟩
      rw [(getE_ok_WF hWF hi).1] at hv
      exact List.mem_map.2 ⟨i, List.mem_range.2 hi, Except.ok.inj hv⟩
    · intro hm
      obtain ⟨i, hir, hfv⟩ := List.mem_map.1 hm
      have hi := List.mem_range.1 hir
      exact ⟨i, hi, by rw [(getE_ok_WF hWF hi).1, hfv]⟩
  case _ => exact fun e he => indexOf_never_assertion he
  case _ =>
    intro hm
    have hiff : (∃ n, r.indexOf v = .ok n) ↔
        v ∈ (List.range r.len).map (fun i => r.atRaw (r.rawOf i).toNat) := by
      rw [indexOf_ok_iff_mem hWF]
      constructor
      · rintro ⟨i, hi, hv⟩
        rw [(getE_ok_WF hWF hi).1] at hv
        exact List.mem_map.2 ⟨i, List.mem_range.2 hi, Except.ok.inj hv⟩
      · intro hm2
        obtain ⟨i, hir, hfv⟩ := List.mem_map.1 hm2
        have hi := List.mem_range.1 hir
        exact ⟨i, hi, by rw [(getE_ok_WF hWF hi).1, hfv]⟩
    obtain ⟨n, hn⟩ := hiff.2 hm
    exact containsE_of_indexOf_ok hn
  case _ =>
    intro hm
    rcases indexOf_ok_or_err r v with ⟨n, hn⟩ | herr
    · exfalso
      obtain ⟨h0, hlt, hget⟩ := getE_of_indexOf_ok hn
      apply hm
      have hi : n.toNat < r.len := by omega
      have hg : r.getE ((n.toNat : Nat) : Int) = .ok v := by
        rw [Int.toNat_of_nonneg h0]
        exact hget
      rw [(getE_ok_WF hWF hi).1] at hg
      exact List.mem_map.2 ⟨n.toNat, List.mem_range.2 hi, Except.ok.inj hg⟩
    · exact containsE_of_indexOf_err herr

theorem C6_not_found_amended_witness :
    ∃ l, (cube2 .xyz).elemsE = .ok l ∧
      ((∃ n, (cube2 .xyz).indexOf ⟨1, 1, 0⟩ = .ok n) ↔ ⟨1, 1, 0⟩ ∈ l) ∧
      (∀ e, (cube2 .xyz).indexOf ⟨1, 1, 0⟩ = .error e →
        e = .valueError) ∧
      ((⟨1, 1, 0⟩ : Vector) ∈ l → (cube2 .xyz).containsE ⟨1, 1, 0⟩ =
        .ok true) ∧
      ((⟨1, 1, 0⟩ : Vector) ∉ l → (cube2 .xyz).containsE ⟨1, 1, 0⟩ =
        .ok false) :=
  C6_not_found_amended (cube2 .xyz)
    (WF_unwindowed (by decide) (by decide) (by decide) rfl) ⟨1, 1, 0⟩

/-- C7 counterexample: with
`r1 = vector_range(Vector(1, 1, 1), order='xyz')` (one element) a strict
prefix of `r2 = vector_range(Vector(2, 1, 1), order='xyz')` (two
elements), the comparison does not yield "neither `<` nor `>`": on
Python 3 both `r1 < r2` and `r2 < r1` raise `TypeError` when the
`zip_longest` padding compares a `Vector` against `None`. -/
theorem C7_counterexample :
    single1.elemsE = .ok [⟨0, 0, 0⟩] ∧
    pair2.elemsE = .ok [⟨0, 0, 0⟩, ⟨1, 0, 0⟩] ∧
    vrLt single1 pair2 = .error .typeError ∧
    vrLt pair2 single1 = .error .typeError :=
  ⟨rfl, rfl, rfl, rfl⟩

/-- C7 (amended): for any two vector_ranges with element lists `l1`, `l2`,
`r1 < r2` returns `True` exactly when at the first position where the
sequences differ `r1`'s element is smaller; and when one list is a strict
prefix of the other the comparison raises `TypeError` (on Python 3)
instead of returning a result. -/
theorem C7_ordering_amended (r1 r2 : vector_range)
    (l1 l2 : List Vector) (e1 : r1.elemsE = .ok l1)
    (e2 : r2.elemsE = .ok l2) :
    (vrLt r1 r2 = .ok true ↔
      ∃ (i : Nat) (a b : Vector), l1[i]? = some a ∧ l2[i]? = some b ∧
        vectorLt a b = true ∧ ∀ j < i, l1[j]? = l2[j]?) ∧
    (vrLt r1 r2 = .error .typeError ↔
      l1 ≠ l2 ∧ (l1 <+: l2 ∨ l2 <+: l1)) := by
  unfold vrLt
  rw [e1, e2]
  exact ⟨ltZip_ok_true_iff l1 l2, ltZip_err_iff l1 l2⟩

theorem C7_ordering_amended_witness :
    (vrLt single1 pair2 = .ok true ↔
      ∃ (i : Nat) (a b : Vector),
        [(⟨0, 0, 0⟩ : Vector)][i]? = some a ∧
        [(⟨0, 0, 0⟩ : Vector), ⟨1, 0, 0⟩][i]? = some b ∧
        vectorLt a b = true ∧
        ∀ j < i, [(⟨0, 0, 0⟩ : Vector)][j]? =
          [(⟨0, 0, 0⟩ : Vector), ⟨1, 0, 0⟩][j]?) ∧
    (vrLt single1 pair2 = .error .typeError ↔
      [(⟨0, 0, 0⟩ : Vector)] ≠ [⟨0, 0, 0⟩, ⟨1, 0, 0⟩] ∧
      ([(⟨0, 0, 0⟩ : Vector)] <+: [⟨0, 0, 0⟩, ⟨1, 0, 0⟩] ∨
        [(⟨0, 0, 0⟩ : Vector), ⟨1, 0, 0⟩] <+: [⟨0, 0, 0⟩])) :=
  C7_ordering_amended single1 pair2 _ _ rfl rfl

/-- C9: on every well-formed vector_range (windowed or not), no vector is
yielded at two distinct logical indices, and `count(v)` — implemented as a
containment test, not a scan — returns 1 for contained vectors and 0 for
all others. -/
theorem C9_no_duplicates (r : vector_range) (hWF : r.WF) :
    (∀ i j : Nat, i < r.len → j < r.len → ∀ v : Vector,
      r.getE (i : Int) = .ok v → r.getE (j : Int) = .ok v → i = j) ∧
    (∀ v : Vector, ∃ l, r.elemsE = .ok l ∧
      (v ∈ l → r.countE v = .ok 1) ∧ (v ∉ l → r.countE v = .ok 0)) := by
  constructor
  · intro i j hi hj v hvi hvj
    have h1 := indexOf_of_getE hWF hi hvi
    have h2 := indexOf_of_getE hWF hj hvj
    rw [h1] at h2
    exact_mod_cast Except.ok.inj h2
  · intro v
    refine ⟨_, elemsE_ok_WF hWF, ?_, ?_⟩
    · intro hm
      obtain ⟨i, hir, hfv⟩ := List.mem_map.1 hm
      have hi := List.mem_range.1 hir
      have hg : r.getE (i : Int) = .ok v := by
        rw [(getE_ok_WF hWF hi).1, hfv]
      have hok := indexOf_of_getE hWF hi hg
      have := countE_of_containsE (containsE_of_indexOf_ok hok)
      simpa using this
    · intro hm
      rcases indexOf_ok_or_err r v with ⟨n, hn⟩ | herr
      · exfalso
        obtain ⟨h0, hlt, hget⟩ := getE_of_indexOf_ok hn
        apply hm
        have hi : n.toNat < r.len := by omega
        have hg : r.getE ((n.toNat : Nat) : Int) = .ok v := by
          rw [Int.toNat_of_nonneg h0]
          exact hget
        rw [(getE_ok_WF hWF hi).1] at hg
        exact List.mem_map.2
          ⟨n.toNat, List.mem_range.2 hi, Except.ok.inj hg⟩
      · have := countE_of_containsE (containsE_of_indexOf_err herr)
        simpa using this

theorem C9_no_duplicates_witness :
    ∃ l, (cube2 .zxy).elemsE = .ok l ∧
      ((⟨1, 1, 1⟩ : Vector) ∈ l → (cube2 .zxy).countE ⟨1, 1, 1⟩ =
        .ok 1) ∧
      ((⟨1, 1, 1⟩ : Vector) ∉ l → (cube2 .zxy).countE ⟨1, 1, 1⟩ =
        .ok 0) :=
  (C9_no_duplicates (cube2 .zxy)
    (WF_unwindowed (by decide) (by decide) (by decide) rfl)).2 ⟨1, 1, 1⟩

/-- C8 (amended): restricted to contiguous (step-1) ascending integer
ranges — the only shape `index()` ever passes — `rmod(denom, result,
num_range)` succeeds and returns exactly the members of `num_range` with
remainder `result` modulo `denom` (empty when the remainder is out of
`[0, denom)` or the range is empty); `rdiv(denom, result)` returns exactly
the integers whose floor-quotient by `denom` is `result`; and both raise
`ValueError` exactly for a non-positive denominator. -/
theorem C8_rmod_rdiv_amended :
    (∀ d p : Int, ∀ nr : PyRange, nr.step = 1 → 0 < d →
      ∃ l, rmod d p nr = .ok l ∧
        ∀ n : Int, n ∈ l ↔ n ∈ nr.toList ∧ n % d = p) ∧
    (∀ (d p : Int) (nr : PyRange), d ≤ 0 →
      rmod d p nr = .error .valueError) ∧
    (∀ d q : Int, 0 < d → ∃ l, rdiv d q = .ok l ∧
      ∀ n : Int, n ∈ l ↔ n / d = q) ∧
    (∀ d q : Int, d ≤ 0 → rdiv d q = .error .valueError) := by
  refine ⟨?_, ?_, ?_, ?_⟩
  · intro d p nr hstep hd
    rcases nr with ⟨a, b, st⟩
    dsimp only at hstep
    subst hstep
    have hfa : PyRange.first ⟨a, b, 1⟩ = a := rfl
    have hlen : PyRange.length ⟨a, b, 1⟩ = (b - a).toNat := by
      simp [PyRange.length]
    by_cases hp : 0 ≤ p ∧ p < d
    · obtain ⟨hp0, hpd⟩ := hp
      by_cases hempty : (b - a).toNat = 0
      · refine ⟨[], ?_, ?_⟩
        · unfold rmod
          rw [if_neg (by omega), if_neg (not_not_intro ⟨hp0, hpd⟩),
            if_pos (by rw [hlen]; exact hempty)]
        · intro n
          simp only [List.not_mem_nil, false_iff]
          rintro ⟨hmem, -⟩
          rw [PyRange.mem_toList_pos (by norm_num : (0 : Int) < 1)] at hmem
          dsimp only at hmem
          omega
      · have hflle : PyRange.first ⟨a, b, 1⟩ ≤ PyRange.last ⟨a, b, 1⟩ := by
          simp only [PyRange.first, PyRange.last, hlen, mul_one]
          omega
        refine ⟨PyRange.toList ⟨a + (p - a % d) % d, b, d⟩, ?_, ?_⟩
        · unfold rmod
          rw [if_neg (by omega), if_neg (not_not_intro ⟨hp0, hpd⟩),
            if_neg (by rw [hlen]; exact hempty),
            if_neg (not_not_intro hflle)]
          rfl
        · intro n
          have hmb0 : 0 ≤ (p - a % d) % d := Int.emod_nonneg _ (by omega)
          have hmb1 : (p - a % d) % d < d := Int.emod_lt_of_pos _ hd
          have hs2 : (a + (p - a % d) % d) % d = p := by
            conv_lhs => rw [Int.add_emod]
            rw [Int.emod_emod_of_dvd _ (dvd_refl d), ← Int.add_emod]
            have hdm := Int.ediv_add_emod a d
            have he : a + (p - a % d) = p + d * (a / d) := by omega
            rw [he, Int.add_mul_emod_self_left]
            exact Int.emod_eq_of_lt hp0 hpd
          constructor
          · intro hmem
            rw [PyRange.mem_toList_pos hd] at hmem
            dsimp only at hmem
            obtain ⟨hsn, hnb, hdvd⟩ := hmem
            refine ⟨?_, ?_⟩
            · rw [PyRange.mem_toList_pos (by norm_num : (0 : Int) < 1)]
              dsimp only
              exact ⟨by omega, hnb, by simp⟩
            · have hnm := Int.emod_eq_emod_iff_emod_sub_eq_zero.2 hdvd
              rw [hs2] at hnm
              exact hnm
          · rintro ⟨hmem, hnp⟩
            rw [PyRange.mem_toList_pos (by norm_num : (0 : Int) < 1)]
              at hmem
            dsimp only at hmem
            obtain ⟨han, hnb, -⟩ := hmem
            rw [PyRange.mem_toList_pos hd]
            dsimp only
            have hdvd : (n - (a + (p - a % d) % d)) % d = 0 := by
              apply Int.emod_eq_emod_iff_emod_sub_eq_zero.1
              rw [hnp, hs2]
            refine ⟨?_, hnb, hdvd⟩
            by_contra hlt
            push_neg at hlt
            obtain ⟨c, hc⟩ := Int.dvd_of_emod_eq_zero hdvd
            have hcneg : c ≤ -1 := by
              rcases lt_or_le c 0 with h | h
              · omega
              · exfalso
                have := mul_nonneg hd.le h
                omega
            have hle : d * c ≤ d * (-1) :=
              mul_le_mul_of_nonneg_left hcneg hd.le
            have hdm1 : d * (-1) = -d := by ring
            omega
    · refine ⟨[], ?_, ?_⟩
      · unfold rmod
        rw [if_neg (by omega), if_pos hp]
      · intro n
        simp only [List.not_mem_nil, false_iff]
        rintro ⟨-, hmod⟩
        have h1 := Int.emod_nonneg n (by omega : d ≠ 0)
        have h2 := Int.emod_lt_of_pos n hd
        omega
  · intro d p nr hd
    unfold rmod
    rw [if_pos hd]
  · intro d q hd
    exact ⟨_, rdiv_ok hd, fun n => mem_rdiv_iff hd⟩
  · intro d q hd
    unfold rdiv
    rw [if_pos hd]

theorem C8_rmod_rdiv_amended_witness :
    (∃ l, rmod 3 2 ⟨0, 10, 1⟩ = .ok l ∧
      ∀ n : Int, n ∈ l ↔ n ∈ PyRange.toList ⟨0, 10, 1⟩ ∧ n % 3 = 2) ∧
    (∃ l, rdiv 3 2 = .ok l ∧ ∀ n : Int, n ∈ l ↔ n / 3 = 2) ∧
    rmod 0 1 ⟨0, 10, 1⟩ = .error .valueError ∧
    rdiv 0 1 = .error .valueError :=
  ⟨C8_rmod_rdiv_amended.1 3 2 ⟨0, 10, 1⟩ rfl (by norm_num),
    C8_rmod_rdiv_amended.2.2.1 3 2 (by norm_num),
    C8_rmod_rdiv_amended.2.1 0 1 ⟨0, 10, 1⟩ (by norm_num),
    C8_rmod_rdiv_amended.2.2.2 0 1 (by norm_num)⟩

theorem C5_construction_validation_witness :
    (∃ e, mkVectorRange ⟨0, 0, 0⟩ none ⟨1, 1, 0⟩ "zxy" = .error e) ∧
    (∃ e, mkVectorRange ⟨0, 0, 0⟩ none ⟨1, 1, 1⟩ "abc" = .error e) :=
  ⟨(C5_construction_validation ⟨0, 0, 0⟩ none ⟨1, 1, 0⟩ "zxy").1.2
      (.inr (.inr (.inr rfl))),
    (C5_construction_validation ⟨0, 0, 0⟩ none ⟨1, 1, 1⟩ "abc").1.2
      (.inl rfl)⟩

end Picraft
